import Mathlib

set_option maxRecDepth 100000

/-!
Verification of the pybitcask storage engine (`src/pybitcask/bitcask.py`,
`src/pybitcask/formats.py`, `src/pybitcask/rotation.py`) against its
natural-language specification.

The development is a shallow embedding of the Python source:

* file contents are `List Nat` (one `Nat` per byte, values below 256);
* Python `str` is Lean `String` (a list of unicode scalar values);
* JSON-serializable Python values are the inductive `JVal`; the stdlib
  `json.dumps` / `json.loads` pair is modelled by `dumpV` / `jsonLoads`,
  matching CPython's default output (`ensure_ascii=True`, separators
  `", "` and `": "`); floats are outside the model, so `JVal` numbers are
  integers;
* the in-memory engine (`Bitcask`) is the structure `Engine`, and every
  method is a pure state transformer; wall-clock reads (`time.time()*1000`)
  become explicit timestamp arguments; `flush` / `fsync` calls are recorded
  in event counters so that durability-related claims are statable.

All definitions are executable, so counterexamples evaluate by `rfl` or
`decide`.
-/

/-! ## Bytes, digits and big-endian integers -/

/-- Big-endian encoding of `n` into exactly `k` bytes
(Python `n.to_bytes(k, byteorder="big")`, truncating; the Python call
raises `OverflowError` for `n ≥ 256^k`, so theorems carry that bound). -/
def beBytes : Nat → Nat → List Nat
  | 0, _ => []
  | k + 1, n => beBytes k (n / 256) ++ [n % 256]

/-- Value of a big-endian byte list (Python `int.from_bytes(bs, "big")`). -/
def beVal (bs : List Nat) : Nat :=
  bs.foldl (fun acc b => acc * 256 + b) 0

/-- Read exactly `k` bytes from a stream; `none` when fewer are available
(models a short `file.read(k)`). -/
def readBytes (k : Nat) (l : List Nat) : Option (List Nat × List Nat) :=
  if l.length < k then none else some (l.take k, l.drop k)

/-- Read a `k`-byte big-endian integer from a stream. -/
def readBE (k : Nat) (l : List Nat) : Option (Nat × List Nat) :=
  match readBytes k l with
  | none => none
  | some (bs, rest) => some (beVal bs, rest)

/-- Decimal digit character for `d < 10`. -/
def digitChar (d : Nat) : Char := Char.ofNat (48 + d)

/-- Fueled digit extraction (structural recursion, so the kernel can
evaluate it on closed terms; `natChars` supplies ample fuel). -/
def natCharsF : Nat → Nat → List Char
  | 0, _ => []
  | f + 1, n =>
    if n < 10 then [digitChar n]
    else natCharsF f (n / 10) ++ [digitChar (n % 10)]

/-- Decimal digit characters of `n`, most significant first (the digits of
Python `str(n)` for a nonnegative `n`). -/
def natChars (n : Nat) : List Char := natCharsF (n + 1) n

/-- Decimal rendering of an integer, matching Python `str(n)` /
`json.dumps(n)` for `int` values. -/
def intChars (n : Int) : List Char :=
  if n < 0 then '-' :: natChars n.natAbs else natChars n.toNat

/-- Lowercase hexadecimal digit character for `d < 16`. -/
def hexChar (d : Nat) : Char :=
  if d < 10 then Char.ofNat (48 + d) else Char.ofNat (87 + d)

/-- Four lowercase hex digits of `n < 0x10000` (the `XXXX` of a JSON
`\uXXXX` escape as produced by CPython's `json.dumps`). -/
def hex4 (n : Nat) : List Char :=
  [hexChar (n / 4096 % 16), hexChar (n / 256 % 16),
   hexChar (n / 16 % 16), hexChar (n % 16)]

/-- Numeric value of a hex digit character, `none` for non-hex characters. -/
def hexDigitVal (c : Char) : Option Nat :=
  let u := c.toNat
  if 48 ≤ u ∧ u ≤ 57 then some (u - 48)
  else if 97 ≤ u ∧ u ≤ 102 then some (u - 87)
  else if 65 ≤ u ∧ u ≤ 70 then some (u - 55)
  else none

/-- Combined value of four hex digit characters. -/
def hex4Val (a b c d : Char) : Option Nat :=
  match hexDigitVal a, hexDigitVal b, hexDigitVal c, hexDigitVal d with
  | some x, some y, some z, some w => some (((x * 16 + y) * 16 + z) * 16 + w)
  | _, _, _, _ => none

/-! ## Lexicographic order on file names

`Bitcask._initialize` and `Bitcask._build_index` use `sorted(...)` over the
file NAMES `data_<N>.db`, i.e. plain string order, not numeric order of `N`.
Since every name shares the prefix `data_`, that order is the lexicographic
order of the strings `<digits of N> ++ ".db"`. -/

/-- Strict lexicographic order on character lists by code point (the order
Python uses to compare `str`). -/
def charListLt : List Char → List Char → Bool
  | [], [] => false
  | [], _ :: _ => true
  | _ :: _, [] => false
  | a :: as, b :: bs =>
    if a.toNat < b.toNat then true
    else if b.toNat < a.toNat then false
    else charListLt as bs

/-- Sort key of the file `data_<n>.db` under Python `sorted` of names:
the characters after the shared prefix `data_`. -/
def fileNameKey (n : Nat) : List Char :=
  natChars n ++ ['.', 'd', 'b']

/-- Order in which `sorted` lists the data files named by ids `a` and `b`. -/
def fileIdLt (a b : Nat) : Bool :=
  charListLt (fileNameKey a) (fileNameKey b)

/-- Insert an id into a list sorted by `fileIdLt`. -/
def insertFileId (a : Nat) : List Nat → List Nat
  | [] => [a]
  | b :: bs => if fileIdLt a b then a :: b :: bs else b :: insertFileId a bs

/-- The ids of the data files in the order `sorted(...)` of their NAMES
produces (insertion sort; the names are distinct so the order is total). -/
def sortFileIds : List Nat → List Nat
  | [] => []
  | a :: as => insertFileId a (sortFileIds as)

/-- Strict lexicographic order on strings (Python `str.__lt__`), used by
`compact` to iterate keys in sorted order. -/
def strLt (a b : String) : Bool := charListLt a.data b.data

/-- Insertion sort of keys by `strLt` (Python `sorted(self.index.keys())`). -/
def insertKey (a : String) : List String → List String
  | [] => [a]
  | b :: bs => if strLt a b then a :: b :: bs else b :: insertKey a bs

/-- Sorted list of keys (Python `sorted`). -/
def sortKeys : List String → List String
  | [] => []
  | a :: as => insertKey a (sortKeys as)

/-! ## JSON values

`JVal` models the JSON-serializable Python values the engine stores:
`None`, `bool`, `int`, `str`, `list`, `dict` (floats are outside the
model). `JArr` and `JObj` are inlined lists so that mutual structural
recursion is available. -/

mutual
inductive JVal where
  | null
  | jbool (b : Bool)
  | jint (n : Int)
  | jstr (s : String)
  | jarr (xs : JArr)
  | jobj (fs : JObj)
inductive JArr where
  | nil
  | cons (hd : JVal) (tl : JArr)
inductive JObj where
  | nil
  | cons (k : String) (v : JVal) (tl : JObj)
end

/-- List of the fields of a `JObj`. -/
def JObj.toList : JObj → List (String × JVal)
  | .nil => []
  | .cons k v t => (k, v) :: t.toList

/-- First value bound to `k` (Python `dict[k]` after `json.loads`). -/
def JObj.find : JObj → String → Option JVal
  | .nil, _ => none
  | .cons k v t, k' => if k = k' then some v else t.find k'

/-- Whether a key occurs in the object. -/
def JObj.hasKey : JObj → String → Bool
  | .nil, _ => false
  | .cons k _ t, k' => k = k' || t.hasKey k'

mutual
/-- Fuel needed by `parseV` to parse the serialization of a value (a
coarse node count; any larger fuel also works). -/
def sizeV : JVal → Nat
  | .null => 1
  | .jbool _ => 1
  | .jint _ => 1
  | .jstr _ => 1
  | .jarr xs => 2 + sizeA xs
  | .jobj fs => 3 + sizeO fs
/-- Fuel needed by `parseArrRest` for the remaining elements. -/
def sizeA : JArr → Nat
  | .nil => 1
  | .cons h t => 1 + sizeV h + sizeA t
/-- Fuel needed by `parseObjRest` for the remaining fields. -/
def sizeO : JObj → Nat
  | .nil => 1
  | .cons _ v t => 3 + sizeV v + sizeO t
end

mutual
/-- Well-formedness: every object in the value has pairwise-distinct keys.
Exactly the `JVal`s that denote actual Python values (a `dict` cannot
repeat keys). -/
def wfV : JVal → Bool
  | .null => true
  | .jbool _ => true
  | .jint _ => true
  | .jstr _ => true
  | .jarr xs => wfA xs
  | .jobj fs => wfO fs
/-- Well-formedness of array elements. -/
def wfA : JArr → Bool
  | .nil => true
  | .cons h t => wfV h && wfA t
/-- Well-formedness of object fields, including key distinctness. -/
def wfO : JObj → Bool
  | .nil => true
  | .cons k v t => !t.hasKey k && wfV v && wfO t
end

/-- Python truthiness of a JSON value (`bool(x)`), used to model
`record.get("deleted", False)` appearing in a boolean context. -/
def isTruthy : JVal → Bool
  | .null => false
  | .jbool b => b
  | .jint n => n ≠ 0
  | .jstr s => s.data ≠ []
  | .jarr .nil => false
  | .jarr (.cons _ _) => true
  | .jobj .nil => false
  | .jobj (.cons _ _ _) => true

/-! ## The JSON serializer (CPython `json.dumps`, default options) -/

/-- Escape of a single character inside a JSON string literal, exactly as
CPython's `json.dumps` emits it with the default `ensure_ascii=True`:
short escapes for `"`, `\\` and the common control characters, `\u00xx`
for other control characters, the character itself for printable ASCII,
`\uxxxx` for other characters of the Basic Multilingual Plane, and a
surrogate pair for characters above it. -/
def escChar (c : Char) : List Char :=
  let u := c.toNat
  if u = 34 then ['\\', '"']
  else if u = 92 then ['\\', '\\']
  else if u = 10 then ['\\', 'n']
  else if u = 9 then ['\\', 't']
  else if u = 13 then ['\\', 'r']
  else if u = 8 then ['\\', 'b']
  else if u = 12 then ['\\', 'f']
  else if u < 32 then '\\' :: 'u' :: hex4 u
  else if u < 127 then [c]
  else if u < 65536 then '\\' :: 'u' :: hex4 u
  else
    '\\' :: 'u' :: hex4 (55296 + (u - 65536) / 1024) ++
      ('\\' :: 'u' :: hex4 (56320 + (u - 65536) % 1024))

/-- Body of a JSON string literal: concatenated escapes of the characters. -/
def escStr (l : List Char) : List Char := l.flatMap escChar

/-- JSON string literal for `s`, as `json.dumps` renders it. -/
def dumpStr (s : String) : List Char :=
  '"' :: escStr s.data ++ ['"']

mutual
/-- Characters of `json.dumps(v)` with CPython's default options
(`ensure_ascii=True`, item separator `", "`, key separator `": "`). -/
def dumpV : JVal → List Char
  | .null => ['n', 'u', 'l', 'l']
  | .jbool true => ['t', 'r', 'u', 'e']
  | .jbool false => ['f', 'a', 'l', 's', 'e']
  | .jint n => intChars n
  | .jstr s => dumpStr s
  | .jarr xs => '[' :: dumpItemsA xs ++ [']']
  | .jobj fs => '{' :: dumpItemsO fs ++ ['}']
/-- Serialized elements of an array, separated by `", "`. -/
def dumpItemsA : JArr → List Char
  | .nil => []
  | .cons h t => dumpV h ++ dumpTailA t
/-- Serialized `", "`-prefixed remaining elements of an array. -/
def dumpTailA : JArr → List Char
  | .nil => []
  | .cons h t => ',' :: ' ' :: (dumpV h ++ dumpTailA t)
/-- Serialized fields of an object, separated by `", "`. -/
def dumpItemsO : JObj → List Char
  | .nil => []
  | .cons k v t => dumpStr k ++ ':' :: ' ' :: dumpV v ++ dumpTailO t
/-- Serialized `", "`-prefixed remaining fields of an object. -/
def dumpTailO : JObj → List Char
  | .nil => []
  | .cons k v t => ',' :: ' ' :: (dumpStr k ++ ':' :: ' ' :: dumpV v ++ dumpTailO t)
end

/-! ## The JSON reader (CPython `json.loads` on canonical input)

The source delegates decoding to Python's `json.loads`, whose grammar is
broader than what `json.dumps` emits (arbitrary whitespace, either quote
of hex case, `\/` escapes...). The model below parses the canonical
serialization produced by `dumpV` (plus surrounding whitespace and both
hex-digit cases); on that input it agrees with `json.loads`. All decode
paths exercised by the engine read back bytes the engine itself encoded,
so the restriction is invisible to every theorem in this file. -/

/-- Reverse an accumulated `JArr` onto a tail. -/
def revA : JArr → JArr → JArr
  | .nil, out => out
  | .cons h t, out => revA t (.cons h out)

/-- Reverse an accumulated `JObj` onto a tail. -/
def revO : JObj → JObj → JObj
  | .nil, out => out
  | .cons k v t, out => revO t (.cons k v out)

/-- Whitespace skipped by the JSON reader. -/
def skipWs : List Char → List Char
  | c :: r => if c = ' ' || c = '\t' || c = '\n' || c = '\r' then skipWs r else c :: r
  | [] => []

/-- Decimal-digit test (`Char.isDigit` unfolded to code-point arithmetic). -/
def isDigitChar (c : Char) : Bool := 48 ≤ c.toNat && c.toNat ≤ 57

/-- Parse a nonempty run of decimal digits into a number. -/
def parseNat (cs : List Char) : Option (Nat × List Char) :=
  let ds := cs.takeWhile isDigitChar
  if ds = [] then none
  else some (ds.foldl (fun acc c => acc * 10 + (c.toNat - 48)) 0, cs.drop ds.length)

/-- Strip an expected literal character sequence off the input. -/
def stripPre : List Char → List Char → Option (List Char)
  | [], cs => some cs
  | _ :: _, [] => none
  | k :: ks, c :: cs => if c = k then stripPre ks cs else none

/-- Read four hex digits off the input, as for a `\uXXXX` escape. -/
def escUVal : List Char → Option (Nat × List Char)
  | h1 :: h2 :: h3 :: h4 :: r =>
    match hex4Val h1 h2 h3 h4 with
    | some m => some (m, r)
    | none => none
  | _ => none

/-- Decode the low-surrogate half `\uXXXX` that must follow a high
surrogate `m`, recombining the pair into one code point. -/
def escSur (m : Nat) : List Char → Option (Char × List Char)
  | b1 :: u1 :: r2 =>
    if b1 = '\\' ∧ u1 = 'u' then
      match escUVal r2 with
      | some (m2, r3) =>
        if 56320 ≤ m2 ∧ m2 ≤ 57343 then
          some (Char.ofNat (65536 + (m - 55296) * 1024 + (m2 - 56320)), r3)
        else none
      | none => none
    else none
  | _ => none

/-- Decode what follows a backslash in a JSON string literal: the named
escapes and `\uXXXX` (with surrogate-pair recombination, as
`json.loads` performs it). Returns the decoded character and the
remaining input. A lone surrogate cannot be a Lean `Char`, a case no
output of the serializer produces. -/
def escDecode (e : Char) (r : List Char) : Option (Char × List Char) :=
  if e = '"' then some ('"', r)
  else if e = '\\' then some ('\\', r)
  else if e = '/' then some ('/', r)
  else if e = 'n' then some ('\n', r)
  else if e = 't' then some ('\t', r)
  else if e = 'r' then some ('\r', r)
  else if e = 'b' then some (Char.ofNat 8, r)
  else if e = 'f' then some (Char.ofNat 12, r)
  else if e = 'u' then
    match escUVal r with
    | some (m, r2) =>
      if 55296 ≤ m ∧ m ≤ 56319 then escSur m r2
      else some (Char.ofNat m, r2)
    | none => none
  else none

def parseStrBodyF : Nat → List Char → List Char → Option (String × List Char)
  | 0, _, _ => none
  | f + 1, acc, cs =>
    match cs with
    | [] => none
    | c :: r =>
      if c = '"' then some (⟨acc.reverse⟩, r)
      else if c = '\\' then
        match r with
        | [] => none
        | e :: r1 =>
          match escDecode e r1 with
          | some (c2, r2) => parseStrBodyF f (c2 :: acc) r2
          | none => none
      else parseStrBodyF f (c :: acc) r

/-- Parse a JSON string literal body with ample fuel. -/
def parseStr (cs : List Char) : Option (String × List Char) :=
  parseStrBodyF (cs.length + 1) [] cs

mutual
/-- Parse one JSON value. `fuel` bounds the recursion and is supplied
large enough for any input by `jsonLoads`. -/
def parseV : Nat → List Char → Option (JVal × List Char)
  | 0, _ => none
  | _ + 1, [] => none
  | fuel + 1, c :: r =>
    if c = 'n' then
      match stripPre ['u', 'l', 'l'] r with
      | some r1 => some (.null, r1)
      | none => none
    else if c = 't' then
      match stripPre ['r', 'u', 'e'] r with
      | some r1 => some (.jbool true, r1)
      | none => none
    else if c = 'f' then
      match stripPre ['a', 'l', 's', 'e'] r with
      | some r1 => some (.jbool false, r1)
      | none => none
    else if c = '"' then
      match parseStr r with
      | some (s, r1) => some (.jstr s, r1)
      | none => none
    else if c = '[' then parseArrStart fuel r
    else if c = '{' then parseObjStart fuel r
    else if c = '-' then
      match parseNat r with
      | some (n, r1) => some (.jint (-(n : Int)), r1)
      | none => none
    else if isDigitChar c then
      match parseNat (c :: r) with
      | some (n, r1) => some (.jint (n : Int), r1)
      | none => none
    else none
/-- Parse what follows `[`: an immediate `]` or the first element. -/
def parseArrStart : Nat → List Char → Option (JVal × List Char)
  | 0, _ => none
  | fuel + 1, r =>
    match skipWs r with
    | [] => none
    | c :: r1 =>
      if c = ']' then some (.jarr .nil, r1)
      else
        match parseV fuel (c :: r1) with
        | some (v, r2) => parseArrRest fuel (.cons v .nil) r2
        | none => none
/-- Parse `, element` continuations of an array until `]`, with the
elements so far in reverse in `acc`. -/
def parseArrRest : Nat → JArr → List Char → Option (JVal × List Char)
  | 0, _, _ => none
  | fuel + 1, acc, cs =>
    match skipWs cs with
    | [] => none
    | c :: r =>
      if c = ']' then some (.jarr (revA acc .nil), r)
      else if c = ',' then
        match parseV fuel (skipWs r) with
        | some (v, r1) => parseArrRest fuel (.cons v acc) r1
        | none => none
      else none
/-- Parse what follows `{`: an immediate `}` or the first key. -/
def parseObjStart : Nat → List Char → Option (JVal × List Char)
  | 0, _ => none
  | fuel + 1, r =>
    match skipWs r with
    | [] => none
    | c :: r1 =>
      if c = '}' then some (.jobj .nil, r1)
      else if c = '"' then
        match parseStr r1 with
        | some (k, r2) => parseObjField fuel .nil k r2
        | none => none
      else none
/-- Parse the `: value` part of an object field named `k`, then continue
with the remaining fields. -/
def parseObjField : Nat → JObj → String → List Char →
    Option (JVal × List Char)
  | 0, _, _, _ => none
  | fuel + 1, acc, k, cs =>
    match skipWs cs with
    | [] => none
    | c :: r =>
      if c = ':' then
        match parseV fuel (skipWs r) with
        | some (v, r1) => parseObjRest fuel (.cons k v acc) r1
        | none => none
      else none
/-- Parse `, "key": value` continuations of an object until `}`. -/
def parseObjRest : Nat → JObj → List Char → Option (JVal × List Char)
  | 0, _, _ => none
  | fuel + 1, acc, cs =>
    match skipWs cs with
    | [] => none
    | c :: r =>
      if c = '}' then some (.jobj (revO acc .nil), r)
      else if c = ',' then
        match skipWs r with
        | [] => none
        | c2 :: r2 =>
          if c2 = '"' then
            match parseStr r2 with
            | some (k, r3) => parseObjField fuel acc k r3
            | none => none
          else none
      else none
end

/-- Model of `json.loads` applied to a whole character sequence: skip
whitespace, parse one value, require only whitespace after it. -/
def jsonLoads (cs : List Char) : Option JVal :=
  match parseV (3 * cs.length + 3) (skipWs cs) with
  | some (v, r) => if skipWs r = [] then some v else none
  | none => none

/-! ## Byte/character conversions -/

/-- UTF-8 bytes of a character sequence, specialized to ASCII: every
serialization fed through this function in this file is output of
`dumpV` with `ensure_ascii=True`, whose characters are all below 0x80,
where UTF-8 is the identity on code points. -/
def charsBytes (l : List Char) : List Nat := l.map Char.toNat

/-- Inverse direction: bytes to characters, code point per byte.
Faithful to the source on the ASCII byte sequences the engine writes. -/
def bytesChars (l : List Nat) : List Char := l.map Char.ofNat

/-- UTF-8 byte length of a string (Python `len(s.encode())`). -/
def utf8Len (s : String) : Nat := s.utf8ByteSize

/-! ## Record formats (`src/pybitcask/formats.py`)

`DataFormat.FORMAT_PROTO = b"\x01"`, `FORMAT_BINARY = b"\x02"`,
`FORMAT_JSON = b"\x03"`. -/

/-- The three codecs of `formats.py`. -/
inductive Fmt where
  | protoF
  | binaryF
  | jsonF
deriving DecidableEq, Repr

/-- Format identifier byte (`get_format_identifier`). -/
def fmtId : Fmt → Nat
  | .protoF => 1
  | .binaryF => 2
  | .jsonF => 3

/-- Model of `get_format_by_identifier`: known identifiers map to their
format; an UNKNOWN identifier falls back to `ProtoFormat` (the source
returns the default instead of failing, so the `if not format` skip
branch in `_build_index` is unreachable). -/
def formatById (b : Nat) : Fmt :=
  if b = 1 then .protoF else if b = 2 then .binaryF else if b = 3 then .jsonF
  else .protoF

/-- Result of one `read_record` call: a decoded record
`(key, value, timestamp, record_size, is_tombstone)`, the end-of-file
signal (the `(None, None, None, None, False)` tuple), or a raised
`ValueError`. -/
inductive ReadRes where
  | record (key : String) (value : Option JVal) (timestamp : Nat)
      (size : Nat) (tomb : Bool)
  | eof
  | err

/-! ### ProtoFormat

`ProtoFormat` serializes via the generated protobuf class
`pybitcask.proto.record_pb2.Record` and frames the payload with a 4-byte
big-endian length prefix. -/

/-- Modelled from the spec: the repository's protobuf message definition
(`pybitcask/proto/record_pb2.py`, fields `key`, `value`, `timestamp`,
`deleted`) is not under `src/`; per spec section 4.1 the payload is "a
compact serialization carrying `key`, `value` (as opaque bytes),
`timestamp` (64-bit unsigned), and `deleted` (boolean)" whose exact format
is "an implementation choice but must be self-describing enough to
round-trip". The model uses length-prefixed fields: a 4-byte big-endian
character count followed by 4-byte big-endian code points for `key`, a
4-byte big-endian length followed by the raw bytes for `value`, an 8-byte
big-endian `timestamp`, and one `deleted` byte. -/
def protoPayload (key : String) (valueBytes : List Nat) (timestamp : Nat)
    (deleted : Bool) : List Nat :=
  beBytes 4 key.data.length ++ key.data.flatMap (fun c => beBytes 4 c.toNat) ++
    beBytes 4 valueBytes.length ++ valueBytes ++ beBytes 8 timestamp ++
    [if deleted then 1 else 0]

/-- Read `n` characters stored as 4-byte big-endian code points. -/
def readPayloadChars : Nat → List Nat → Option (List Char × List Nat)
  | 0, l => some ([], l)
  | n + 1, l =>
    match readBE 4 l with
    | none => none
    | some (c, l') =>
      match readPayloadChars n l' with
      | none => none
      | some (cs, l2) => some (Char.ofNat c :: cs, l2)

/-- Modelled from the spec: inverse of `protoPayload` (protobuf
`Record.ParseFromString`); fails on any leftover bytes. -/
def parseProtoPayload (l : List Nat) :
    Option (String × List Nat × Nat × Bool) :=
  match readBE 4 l with
  | none => none
  | some (n, l1) =>
    match readPayloadChars n l1 with
    | none => none
    | some (ks, l2) =>
      match readBE 4 l2 with
      | none => none
      | some (vlen, l3) =>
        match readBytes vlen l3 with
        | none => none
        | some (vb, l4) =>
          match readBE 8 l4 with
          | none => none
          | some (t, l5) =>
            match l5 with
            | [d] =>
              if d = 1 then some (⟨ks⟩, vb, t, true)
              else if d = 0 then some (⟨ks⟩, vb, t, false)
              else none
            | _ => none

/-- `ProtoFormat.encode_record`: protobuf payload of
`(key, json.dumps(value).encode(), timestamp, deleted=False)` behind a
4-byte big-endian size prefix. -/
def protoEncodeRecord (key : String) (value : JVal) (timestamp : Nat) :
    List Nat :=
  let payload := protoPayload key (charsBytes (dumpV value)) timestamp false
  beBytes 4 payload.length ++ payload

/-- `ProtoFormat.encode_tombstone`: payload with `deleted = True` and
unset (empty) value bytes, behind the same size prefix. -/
def protoEncodeTombstone (key : String) (timestamp : Nat) : List Nat :=
  let payload := protoPayload key [] timestamp true
  beBytes 4 payload.length ++ payload

/-- `ProtoFormat.read_record`: read the 4-byte size (short read ⇒ the
end-of-file tuple), read that many payload bytes (short read, or the
`not data` test on an empty payload ⇒ end-of-file tuple), parse the
payload (failure ⇒ `ValueError`), and decode the value bytes with
`json.loads` for non-tombstones. -/
def protoReadRecord (l : List Nat) : ReadRes :=
  match readBE 4 l with
  | none => .eof
  | some (size, r) =>
    if size = 0 then .eof
    else match readBytes size r with
    | none => .eof
    | some (payload, _) =>
      match parseProtoPayload payload with
      | none => .err
      | some (k, vb, t, deleted) =>
        if deleted then .record k none t (size + 4) true
        else
          match jsonLoads (bytesChars vb) with
          | some v => .record k (some v) t (size + 4) false
          | none => .err

/-! ### JsonFormat -/

/-- The dict `{"key": key, "value": value, "timestamp": timestamp}` that
`JsonFormat.encode_record` serializes. -/
def jsonRecordObj (key : String) (value : JVal) (timestamp : Nat) : JVal :=
  .jobj (.cons "key" (.jstr key)
    (.cons "value" value (.cons "timestamp" (.jint timestamp) .nil)))

/-- The dict `{"key": key, "value": None, "timestamp": timestamp,
"deleted": True}` that `JsonFormat.encode_tombstone` serializes. -/
def jsonTombstoneObj (key : String) (timestamp : Nat) : JVal :=
  .jobj (.cons "key" (.jstr key)
    (.cons "value" .null
      (.cons "timestamp" (.jint timestamp)
        (.cons "deleted" (.jbool true) .nil))))

/-- `JsonFormat.encode_record`: `(json.dumps(record) + "\n").encode()`. -/
def jsonEncodeRecord (key : String) (value : JVal) (timestamp : Nat) :
    List Nat :=
  charsBytes (dumpV (jsonRecordObj key value timestamp)) ++ [10]

/-- `JsonFormat.encode_tombstone`. -/
def jsonEncodeTombstone (key : String) (timestamp : Nat) : List Nat :=
  charsBytes (dumpV (jsonTombstoneObj key timestamp)) ++ [10]

/-- Python `f.readline()`: bytes up to and including the next newline,
or up to end of file. -/
def readLine (l : List Nat) : List Nat :=
  let pre := l.takeWhile (fun b => b ≠ 10)
  if pre.length < l.length then pre ++ [10] else pre

/-- Timestamp field as the engine stores it: the engine only ever writes
nonnegative `now_ms()` values, so a negative integer in a hand-crafted
file is clamped by `Int.toNat` in the model. -/
def tsOfInt (n : Int) : Nat := n.toNat

/-- `JsonFormat.read_record`: read one line (empty ⇒ end-of-file tuple),
`json.loads` it, look up `"deleted"` with default `False`, then the
`"key"` / `"timestamp"` (and for non-tombstones `"value"`) fields;
any parse failure or missing field raises, modelled as `.err`. A record
whose `"key"` field is not a string is also modelled as `.err` (the
engine never writes one). -/
def jsonReadRecord (l : List Nat) : ReadRes :=
  let line := readLine l
  if line = [] then .eof
  else
    match jsonLoads (bytesChars line) with
    | some (.jobj fs) =>
      let deleted := match fs.find "deleted" with
        | some v => isTruthy v
        | none => false
      match fs.find "key", fs.find "timestamp" with
      | some (.jstr k), some (.jint t) =>
        if deleted then .record k none (tsOfInt t) line.length true
        else
          match fs.find "value" with
          | some v => .record k (some v) (tsOfInt t) line.length false
          | none => .err
      | _, _ => .err
    | _ => .err

/-! ### BinaryFormat

Present in `formats.py` (identifier `0x02`) though the engine never
selects it; modelled because `get_format_by_identifier` can return it
for files beginning with `0x02`. -/

/-- `BinaryFormat.encode_record`: `>IIQ` header (key length, value
length, timestamp) then key bytes then `json.dumps(value)` bytes. -/
def binaryEncodeRecord (key : String) (value : JVal) (timestamp : Nat) :
    List Nat :=
  let kb := charsBytes key.data
  let vb := charsBytes (dumpV value)
  beBytes 4 kb.length ++ beBytes 4 vb.length ++ beBytes 8 timestamp ++ kb ++ vb

/-- `BinaryFormat.encode_tombstone`: value length 0 marks the tombstone. -/
def binaryEncodeTombstone (key : String) (timestamp : Nat) : List Nat :=
  let kb := charsBytes key.data
  beBytes 4 kb.length ++ beBytes 4 0 ++ beBytes 8 timestamp ++ kb

/-- `BinaryFormat.read_record`. -/
def binaryReadRecord (l : List Nat) : ReadRes :=
  match readBytes 16 l with
  | none => .eof
  | some (header, r) =>
    let keySize := beVal (header.take 4)
    let valueSize := beVal ((header.drop 4).take 4)
    let timestamp := beVal (header.drop 8)
    match readBytes keySize r with
    | none => .err
    | some (kb, r1) =>
      let k : String := ⟨bytesChars kb⟩
      if valueSize = 0 then .record k none timestamp (16 + keySize) true
      else
        match readBytes valueSize r1 with
        | none => .err
        | some (vb, _) =>
          match jsonLoads (bytesChars vb) with
          | some v => .record k (some v) timestamp (16 + keySize + valueSize) false
          | none => .err

/-- `read_record` of the selected codec, applied to the stream starting
at the current position. -/
def readRecord : Fmt → List Nat → ReadRes
  | .protoF, l => protoReadRecord l
  | .jsonF, l => jsonReadRecord l
  | .binaryF, l => binaryReadRecord l

/-- `encode_record` of the selected codec. -/
def encodeRecord : Fmt → String → JVal → Nat → List Nat
  | .protoF, k, v, t => protoEncodeRecord k v t
  | .jsonF, k, v, t => jsonEncodeRecord k v t
  | .binaryF, k, v, t => binaryEncodeRecord k v t

/-- `encode_tombstone` of the selected codec. -/
def encodeTombstone : Fmt → String → Nat → List Nat
  | .protoF, k, t => protoEncodeTombstone k t
  | .jsonF, k, t => jsonEncodeTombstone k t
  | .binaryF, k, t => binaryEncodeTombstone k t

/-! ## Python `str()` of stored values

`put`, `batch_write` and `_build_index` store
`len(str(value).encode())` as the index entry's `value_size`, so the
model needs `str()` on JSON-shaped Python values. `pyReprV` is `repr`
(used for elements nested in containers); `pyStrV` is `str` (identity on
strings, `repr` otherwise). The `repr` of a string models the common
cases: quote selection as CPython does it and escaping of backslashes,
quotes, and the control characters `\n`, `\r`, `\t`; other
non-printables (which no theorem in this file depends on) are kept
verbatim. -/

/-- Characters of the Python `repr` of a string. -/
def pyReprStr (s : String) : List Char :=
  let q : Char := if s.data.contains '\'' && !s.data.contains '"' then '"' else '\''
  let esc : Char → List Char := fun c =>
    if c = '\\' then ['\\', '\\']
    else if c = q then ['\\', q]
    else if c = '\n' then ['\\', 'n']
    else if c = '\r' then ['\\', 'r']
    else if c = '\t' then ['\\', 't']
    else [c]
  q :: s.data.flatMap esc ++ [q]

mutual
/-- Characters of Python `repr(v)`. -/
def pyReprV : JVal → List Char
  | .null => ['N', 'o', 'n', 'e']
  | .jbool true => ['T', 'r', 'u', 'e']
  | .jbool false => ['F', 'a', 'l', 's', 'e']
  | .jint n => intChars n
  | .jstr s => pyReprStr s
  | .jarr xs => '[' :: pyReprItemsA xs ++ [']']
  | .jobj fs => '{' :: pyReprItemsO fs ++ ['}']
/-- `repr` of list elements, `", "`-separated. -/
def pyReprItemsA : JArr → List Char
  | .nil => []
  | .cons h .nil => pyReprV h
  | .cons h t => pyReprV h ++ ',' :: ' ' :: pyReprItemsA t
/-- `repr` of dict items, `", "`-separated. -/
def pyReprItemsO : JObj → List Char
  | .nil => []
  | .cons k v .nil => pyReprStr k ++ ':' :: ' ' :: pyReprV v
  | .cons k v t => pyReprStr k ++ ':' :: ' ' :: pyReprV v ++ ',' :: ' ' :: pyReprItemsO t
end

/-- Characters of Python `str(v)`: the string itself for `str` values,
`repr` otherwise. -/
def pyStrV : JVal → List Char
  | .jstr s => s.data
  | v => pyReprV v

/-- The `value_size` the engine stores: `len(str(value).encode())`. -/
def valueSizeOf (v : Option JVal) : Nat :=
  match v with
  | some jv => utf8Len ⟨pyStrV jv⟩
  | none => 4

/-! ## The engine (`src/pybitcask/bitcask.py`) -/

/-- One in-memory index entry:
`{"file_id", "value_size", "value_pos", "timestamp"}`. -/
structure IndexEntry where
  fileId : Nat
  valueSize : Nat
  valuePos : Nat
  timestamp : Nat
deriving DecidableEq, Repr

/-- Look up a key in an association list (Python `dict` read). -/
def lookupAssoc {α : Type} (l : List (String × α)) (k : String) : Option α :=
  match l with
  | [] => none
  | (k', v) :: t => if k' = k then some v else lookupAssoc t k

/-- Write a key in an association list, keeping the position of an
existing binding (Python `dict` assignment semantics). -/
def setAssoc {α : Type} (l : List (String × α)) (k : String) (v : α) :
    List (String × α) :=
  match l with
  | [] => [(k, v)]
  | (k', v') :: t => if k' = k then (k, v) :: t else (k', v') :: setAssoc t k v

/-- Delete a key from an association list (Python `del dict[k]` /
a no-op when absent, used where the source guards membership). -/
def eraseAssoc {α : Type} (l : List (String × α)) (k : String) :
    List (String × α) :=
  match l with
  | [] => []
  | (k', v') :: t => if k' = k then t else (k', v') :: eraseAssoc t k

/-- Content of the data file with id `n`, if it exists. -/
def fileContent (files : List (Nat × List Nat)) (n : Nat) :
    Option (List Nat) :=
  match files with
  | [] => none
  | (m, c) :: t => if m = n then some c else fileContent t n

/-- Append bytes to the data file with id `n` (no-op when absent). -/
def appendFile (files : List (Nat × List Nat)) (n : Nat) (bs : List Nat) :
    List (Nat × List Nat) :=
  match files with
  | [] => []
  | (m, c) :: t =>
    if m = n then (m, c ++ bs) :: t else (m, c) :: appendFile t n bs

/-- Unlink the data file with id `n`. -/
def removeFile (files : List (Nat × List Nat)) (n : Nat) :
    List (Nat × List Nat) :=
  match files with
  | [] => []
  | (m, c) :: t => if m = n then t else (m, c) :: removeFile t n

/-- Unlink several data files. -/
def removeFiles (files : List (Nat × List Nat)) : List Nat →
    List (Nat × List Nat)
  | [] => files
  | n :: ns => removeFiles (removeFile files n) ns

/-- The engine state: the data directory (`files`, id ↦ bytes), the
in-memory index, whether `self.active_file` is an open handle
(`activeOpen`; `False` models `None`), the active file id and entry
count, the chosen codec, and counters of the `flush()` and `os.fsync()`
calls issued so far (so durability claims are statable). -/
structure Engine where
  files : List (Nat × List Nat)
  index : List (String × IndexEntry)
  activeOpen : Bool
  activeFileId : Nat
  activeEntryCount : Nat
  fmt : Fmt
  flushes : Nat
  fsyncs : Nat
deriving Repr

/-- Codec selection in `Bitcask.__init__`:
`JsonFormat() if self.debug_mode else ProtoFormat()`. -/
def chooseFmt (debugMode : Bool) : Fmt :=
  if debugMode then .jsonF else .protoF

/-- Bytes of the current active file (`a+b` handles are positioned at
end of file, so `tell()` is its length). -/
def activeContent (e : Engine) : List Nat :=
  (fileContent e.files e.activeFileId).getD []

/-- `Bitcask._create_new_data_file`: close the active handle, increment
the file id, `touch` the file (appending to an existing file of that
name, as `open(..., "a+b")` would), write the format identifier byte and
flush. -/
def createNewDataFile (e : Engine) : Engine :=
  let id := e.activeFileId + 1
  let files :=
    match fileContent e.files id with
    | some _ => e.files
    | none => e.files ++ [(id, ([] : List Nat))]
  { e with
    files := appendFile files id [fmtId e.fmt]
    activeFileId := id
    activeOpen := true
    activeEntryCount := 0
    flushes := e.flushes + 1 }

/-- One record step of the `_build_index` scan loop: apply a decoded
record to the index. Tombstones remove the key unconditionally; other
records replace the entry only when their timestamp is strictly larger
(`current_entry["timestamp"] < timestamp`). -/
def scanStep (id : Nat) (idx : List (String × IndexEntry)) (k : String)
    (v : Option JVal) (ts pos : Nat) (tomb : Bool) :
    List (String × IndexEntry) :=
  if tomb then eraseAssoc idx k
  else
    match lookupAssoc idx k with
    | some cur =>
      if cur.timestamp < ts then
        setAssoc idx k
          { fileId := id, valueSize := valueSizeOf v, valuePos := pos,
            timestamp := ts }
      else idx
    | none =>
      setAssoc idx k
        { fileId := id, valueSize := valueSizeOf v, valuePos := pos,
          timestamp := ts }

/-- The `while True: read_record` loop of `_build_index` over one file,
starting at byte offset `pos`. End of file stops the loop; a decode
error also stops it (the `except` logs and breaks). `fuel` only bounds
the recursion and is chosen larger than the file. -/
def scanRecords (fmt : Fmt) (id : Nat) (content : List Nat) :
    Nat → Nat → List (String × IndexEntry) → List (String × IndexEntry)
  | 0, _, idx => idx
  | fuel + 1, pos, idx =>
    match readRecord fmt (content.drop pos) with
    | .eof => idx
    | .err => idx
    | .record k v ts size tomb =>
      scanRecords fmt id content fuel (pos + size)
        (scanStep id idx k v ts pos tomb)

/-- Per-file step of `_build_index`: read the format byte (an empty file
is skipped), pick the codec via `get_format_by_identifier` (which falls
back to `ProtoFormat`, so the `if not format` skip is unreachable), and
scan the records starting at offset 1. -/
def scanFile (e : Engine) (id : Nat) : Engine :=
  match fileContent e.files id with
  | none => e
  | some [] => e
  | some (b :: rest) =>
    { e with
      index := scanRecords (formatById b) id (b :: rest)
        (rest.length + 1) 1 e.index }

/-- `Bitcask._build_index`: clear the index, list `data_*.db` by sorted
NAME, scan each file in that order, then make the name-wise last file
active. -/
def buildIndex (e : Engine) : Engine :=
  let e0 := { e with index := [], activeOpen := false, activeFileId := 0 }
  let ids := sortFileIds (e.files.map (fun f => f.1))
  match ids with
  | [] => createNewDataFile e0
  | _ :: _ =>
    let e1 := ids.foldl scanFile e0
    { e1 with activeFileId := ids.getLastD 0, activeOpen := true }

/-- `Bitcask.__init__` + `Bitcask._initialize` given the directory
contents: choose the codec from `debug_mode`; with no data files create
`data_1.db`, otherwise open the name-wise last file and build the index
(whose net effect is `buildIndex`). -/
def engineInit (files : List (Nat × List Nat)) (debugMode : Bool) : Engine :=
  let e : Engine :=
    { files := files, index := [], activeOpen := false, activeFileId := 0,
      activeEntryCount := 0, fmt := chooseFmt debugMode, flushes := 0,
      fsyncs := 0 }
  match files with
  | [] => createNewDataFile e
  | _ :: _ => buildIndex e

/-- `Bitcask.put(key, value)` with the sampled `now_ms()` made explicit:
recreate the active file if the handle is `None`, append the encoded
record at the current end of file, flush, bump the entry count, update
the index. -/
def putOp (e : Engine) (k : String) (v : JVal) (t : Nat) : Engine :=
  let e := if e.activeOpen then e else createNewDataFile e
  let record := encodeRecord e.fmt k v t
  let pos := (activeContent e).length
  { e with
    files := appendFile e.files e.activeFileId record
    flushes := e.flushes + 1
    activeEntryCount := e.activeEntryCount + 1
    index := setAssoc e.index k
      { fileId := e.activeFileId, valueSize := valueSizeOf (some v),
        valuePos := pos, timestamp := t } }

/-- `Bitcask.get(key)`: index lookup, open the referenced file, read its
format byte, seek to `value_pos` and `read_record`. A tombstone found
there deletes the decoded key from the index and yields `None`; the
end-of-file tuple yields its `None` value; read errors are caught and
yield `None`. -/
def getOp (e : Engine) (k : String) : Option JVal × Engine :=
  match lookupAssoc e.index k with
  | none => (none, e)
  | some entry =>
    match fileContent e.files entry.fileId with
    | none => (none, e)
    | some [] => (none, e)
    | some (b :: rest) =>
      match readRecord (formatById b) ((b :: rest).drop entry.valuePos) with
      | .record k' v _ _ tomb =>
        if tomb then (none, { e with index := eraseAssoc e.index k' })
        else (v, e)
      | .eof => (none, e)
      | .err => (none, e)

/-- Value component of `get`. -/
def getVal (e : Engine) (k : String) : Option JVal := (getOp e k).1

/-- `Bitcask.delete(key)`: `False` for a key not in the index (nothing
written); otherwise append a tombstone, flush AND `os.fsync`, drop the
key from the index, return `True`. -/
def deleteOp (e : Engine) (k : String) (t : Nat) : Bool × Engine :=
  match lookupAssoc e.index k with
  | none => (false, e)
  | some _ =>
    let e := if e.activeOpen then e else createNewDataFile e
    let tomb := encodeTombstone e.fmt k t
    (true,
      { e with
        files := appendFile e.files e.activeFileId tomb
        flushes := e.flushes + 1
        fsyncs := e.fsyncs + 1
        index := eraseAssoc e.index k })

/-- `Bitcask.batch_write(data)` with one shared timestamp: every record
is appended with `self.active_file.tell()` and the index updated, then a
single flush. When `self.active_file` is `None` (after `close()`), the
unguarded `self.active_file.tell()` — or, for an empty dict, the final
`self.active_file.flush()` — raises `AttributeError`, modelled as
`none`; the exception escapes before any byte is written. -/
def batchWrite (e : Engine) (data : List (String × JVal)) (t : Nat) :
    Option Engine :=
  if e.activeOpen then
    let e1 := data.foldl
      (fun acc kv =>
        let record := encodeRecord acc.fmt kv.1 kv.2 t
        let pos := (activeContent acc).length
        { acc with
          files := appendFile acc.files acc.activeFileId record
          index := setAssoc acc.index kv.1
            { fileId := acc.activeFileId,
              valueSize := valueSizeOf (some kv.2), valuePos := pos,
              timestamp := t } })
      e
    some { e1 with
      flushes := e1.flushes + 1
      activeEntryCount := e1.activeEntryCount + data.length }
  else none

/-- `Bitcask.close()`: drop the active handle. -/
def closeOp (e : Engine) : Engine := { e with activeOpen := false }

/-- `Bitcask.list_keys()`. -/
def listKeys (e : Engine) : List String := e.index.map (fun kv => kv.1)

/-! ### Compaction -/

/-- Result of `get_compaction_stats`. The dead ratio is exact rational
arithmetic standing in for Python floats; every claim about it is a
comparison the gating logic performs, not an IEEE rounding property. -/
structure CompactionStats where
  totalFiles : Nat
  totalSize : Nat
  liveKeys : Nat
  estimatedLiveSize : Nat
  estimatedDeadRatio : ℚ
deriving Repr

/-- Total on-disk size of the data files. -/
def totalSize (e : Engine) : Nat := (e.files.map (fun f => f.2.length)).sum

/-- `Bitcask.get_compaction_stats`: file count, byte total, live key
count, the per-entry estimate `value_size + len(key) + 20`, and
`max(0, (total - live) / total)`. -/
def compactionStats (e : Engine) : CompactionStats :=
  let ts := totalSize e
  let live :=
    (e.index.map (fun kv => kv.2.valueSize + kv.1.data.length + 20)).sum
  { totalFiles := e.files.length
    totalSize := ts
    liveKeys := e.index.length
    estimatedLiveSize := live
    estimatedDeadRatio :=
      if ts > 0 then max 0 (((ts : ℚ) - live) / ts) else 0 }

/-- `Bitcask.should_compact(threshold_ratio)`: no compaction below 1 MiB
total, none for a single file below 10 MiB, otherwise compare the dead
ratio against the threshold. -/
def shouldCompact (e : Engine) (thresholdRatio : ℚ) : Bool :=
  let stats := compactionStats e
  if stats.totalSize < 1024 * 1024 then false
  else if stats.totalFiles < 2 && stats.totalSize < 10 * 1024 * 1024 then false
  else stats.estimatedDeadRatio ≥ thresholdRatio

/-- Report returned by `compact` (the fields the claims mention). -/
structure CompactReport where
  performed : Bool
  reason : Option String
  recordsWritten : Nat
  bytesWritten : Nat
  filesRemoved : Nat
deriving DecidableEq, Repr

/-- Outcome of `compact`: a returned report, or a raised
`RuntimeError("Compaction failed: ...")` leaving the engine in the state
the `except` handler produced. -/
inductive CompactRes where
  | done (e : Engine) (r : CompactReport)
  | failed (e : Engine)

/-- Numeric maximum of the existing file ids
(`max((int(f.stem.split("_")[1]) for f in old_data_files), default=0)`) —
note this is NUMERIC, unlike the name-wise sorts elsewhere. -/
def maxFileId (files : List (Nat × List Nat)) : Nat :=
  (files.map (fun f => f.1)).foldl max 0

/-- State after `compact`'s `except` handler when an error strikes
between creating the new file and the index swap: the partial
`data_<newId>.db` is unlinked, and `old_data_files[-1]` — the NAME-wise
last old file — is reopened as the active file. The live index was never
touched (only the `new_index` copy was). -/
def compactRestore (e : Engine) (oldIds : List Nat) (newId : Nat) : Engine :=
  let e1 := { e with activeOpen := false, files := removeFile e.files newId }
  match oldIds with
  | [] => e1
  | _ :: _ =>
    { e1 with activeFileId := oldIds.getLastD 0, activeOpen := true }

/-- `Bitcask._detect_format`: an empty file yields the engine's current
codec, otherwise the first byte chooses (with `ProtoFormat` fallback
inside `get_format_by_identifier`). -/
def detectFormat (e : Engine) (content : List Nat) : Fmt :=
  match content with
  | [] => e.fmt
  | b :: _ => formatById b

/-- Per-key step of the compaction rewrite loop: locate the key's record
via the LIVE index, re-read it from its source file, skip tombstones,
missing values and key mismatches, otherwise re-encode
`(key, value, entry["timestamp"])` with the engine codec, append it to
the new file and repoint the key in the `new_index` copy. The
accumulator carries (new file content, new_index, records_written,
bytes_written). -/
def compactKeyStep (e : Engine) (newId : Nat)
    (acc : List Nat × List (String × IndexEntry) × Nat × Nat) (key : String) :
    List Nat × List (String × IndexEntry) × Nat × Nat :=
  let (content, newIndex, records, bytes) := acc
  match lookupAssoc e.index key with
  | none => acc
  | some entry =>
    match fileContent e.files entry.fileId with
    | none => acc
    | some src =>
      match readRecord (detectFormat e src) (src.drop entry.valuePos) with
      | .record k' v _ _ tomb =>
        if tomb then acc
        else
          match v with
          | none => acc
          | some value =>
            if k' ≠ key then acc
            else
              let record := encodeRecord e.fmt key value entry.timestamp
              let pos := content.length
              (content ++ record,
                setAssoc newIndex key
                  { fileId := newId, valueSize := entry.valueSize,
                    valuePos := pos, timestamp := entry.timestamp },
                records + 1, bytes + record.length)
      | .eof => acc
      | .err => acc

/-- `Bitcask.compact(threshold_ratio, force)`. `failDuringWrite` injects
an I/O error in the region between creating `data_<newId>.db` and the
index swap (the region claim C4 quantifies over); the handler state is
independent of the precise failure point because the partial file is
unlinked and the live index was never written. -/
def compactOp (e : Engine) (thresholdRatio : ℚ) (force : Bool)
    (failDuringWrite : Bool) : CompactRes :=
  if !force && !shouldCompact e thresholdRatio then
    .done e
      { performed := false, reason := some "threshold_not_met",
        recordsWritten := 0, bytesWritten := 0, filesRemoved := 0 }
  else
    let e1 := { e with activeOpen := false }
    let oldIds := sortFileIds (e.files.map (fun f => f.1))
    let newId := maxFileId e.files + 1
    if failDuringWrite then .failed (compactRestore e1 oldIds newId)
    else
      let keys := sortKeys (e.index.map (fun kv => kv.1))
      let start : List Nat × List (String × IndexEntry) × Nat × Nat :=
        ([fmtId e.fmt], e.index, 0, 1)
      let (newContent, newIndex, records, bytes) :=
        keys.foldl (compactKeyStep e1 newId) start
      let files1 := removeFiles (e.files ++ [(newId, newContent)]) oldIds
      .done
        { e1 with
          files := files1
          index := newIndex
          activeFileId := newId
          activeOpen := true
          activeEntryCount := records
          flushes := e.flushes + 1
          fsyncs := e.fsyncs + 1 }
        { performed := true, reason := none, recordsWritten := records,
          bytesWritten := bytes, filesRemoved := oldIds.length }

/-! ## Rotation (`src/pybitcask/rotation.py`)

The strategy classes exist in the source, and the repository's tests
construct `Bitcask(dir, rotation_strategy=...)` — but the engine's
`__init__` accepts no such parameter and `put` never consults any
strategy (see claim C3). -/

/-- `EntryCountRotation.should_rotate`: `entry_count >= max_entries`. -/
def entryCountShouldRotate (maxEntries entryCount : Nat) : Bool :=
  entryCount ≥ maxEntries

/-- `SizeBasedRotation.should_rotate`: `file_size >= max_size_bytes`. -/
def sizeShouldRotate (maxSizeBytes fileSize : Nat) : Bool :=
  fileSize ≥ maxSizeBytes

/-! ## Concrete scenario runs used by the claim theorems

Each is a sequence of engine operations with explicit, strictly
increasing `now_ms()` samples. -/

/-- Engine opened on an empty directory with the default codec. -/
def eRun0 : Engine := engineInit [] false

/-- `put("a", "v1")` into `data_1.db`. -/
def eRun1 : Engine := putOp eRun0 "a" (.jstr "v1") 1

/-- `close()` then `put("b", "x")`: creates `data_2.db`. -/
def eRun2 : Engine := putOp (closeOp eRun1) "b" (.jstr "x") 2

/-- `delete("a")`: tombstone appended to `data_2.db`. -/
def eRun3 : Engine := (deleteOp eRun2 "a" 3).2

/-- Seven further `close(); put("b", "x")` cycles creating
`data_3.db` … `data_9.db`. -/
def eRun4 : Engine := putOp (closeOp eRun3) "b" (.jstr "x") 4

/-- Cycle creating `data_4.db`. -/
def eRun5 : Engine := putOp (closeOp eRun4) "b" (.jstr "x") 5

/-- Cycle creating `data_5.db`. -/
def eRun6 : Engine := putOp (closeOp eRun5) "b" (.jstr "x") 6

/-- Cycle creating `data_6.db`. -/
def eRun7 : Engine := putOp (closeOp eRun6) "b" (.jstr "x") 7

/-- Cycle creating `data_7.db`. -/
def eRun8 : Engine := putOp (closeOp eRun7) "b" (.jstr "x") 8

/-- Cycle creating `data_8.db`. -/
def eRun9 : Engine := putOp (closeOp eRun8) "b" (.jstr "x") 9

/-- Cycle creating `data_9.db`. -/
def eRun10 : Engine := putOp (closeOp eRun9) "b" (.jstr "x") 10

/-- `close()` then `put("a", "v2")`: creates `data_10.db`; the logical
map is now `a ↦ "v2", b ↦ "x"`. -/
def eRun11 : Engine := putOp (closeOp eRun10) "a" (.jstr "v2") 11

/-- The engine reopened on the same ten data files. -/
def eReopen : Engine := engineInit eRun11.files false

/-- A directory holding `data_2.db` and `data_10.db`, both in proto
format, with the later file carrying the later record. -/
def c2Engine : Engine :=
  engineInit
    [(2, 1 :: protoEncodeRecord "a" (.jstr "old") 1),
      (10, 1 :: protoEncodeRecord "a" (.jstr "new") 2)] false

/-- Fresh engine for the rotation scenario. -/
def c3Engine0 : Engine := engineInit [] false

/-- Six successive puts of distinct keys (the `EntryCount(max=5)`
scenario of the spec; the engine accepts no rotation strategy, so none
is in effect). -/
def c3Engine : Engine :=
  putOp (putOp (putOp (putOp (putOp (putOp c3Engine0
    "k0" (.jstr "v") 1) "k1" (.jstr "v") 2) "k2" (.jstr "v") 3)
    "k3" (.jstr "v") 4) "k4" (.jstr "v") 5) "k5" (.jstr "v") 6

/-- A data file whose first byte (255) is no codec identifier, followed
by a well-formed proto record. -/
def c8File : List Nat := 255 :: protoEncodeRecord "a" (.jstr "x") 5

/-- Engine opened on a directory holding only that file. -/
def c8Engine : Engine := engineInit [(1, c8File)] false

/-- A store above the 1 MiB compaction threshold: one large sealed file
and a fresh active file. -/
def c9BigEngine : Engine :=
  { files := [(1, List.replicate 1048576 0), (2, [1])], index := [],
    activeOpen := true, activeFileId := 2, activeEntryCount := 0,
    fmt := .protoF, flushes := 0, fsyncs := 0 }

/-- Whether a character sequence begins with a decimal digit (the only
follower that changes how a serialized number re-parses). -/
def digitStart : List Char → Bool
  | [] => false
  | c :: _ => isDigitChar c

/-! ## Lemmas: characters, digits, hex -/

theorem char_toNat_ofNat {n : Nat} (h : n.isValidChar) :
    (Char.ofNat n).toNat = n := by
  simp only [Char.ofNat, h, dif_pos]
  rfl

theorem char_valid (c : Char) : c.toNat.isValidChar := by
  have := c.valid
  simpa [UInt32.isValidChar, Char.toNat] using this

theorem char_eq_of_toNat {c : Char} {n : Nat} (h : c.toNat = n) :
    c = Char.ofNat n := by
  rw [← h, Char.ofNat_toNat]

theorem digitChar_toNat {d : Nat} (h : d < 10) :
    (digitChar d).toNat = 48 + d := by
  unfold digitChar
  exact char_toNat_ofNat (Or.inl (by omega))

theorem isDigitChar_digitChar {d : Nat} (h : d < 10) :
    isDigitChar (digitChar d) = true := by
  simp [isDigitChar, digitChar_toNat h]
  omega

theorem hexChar_toNat {d : Nat} (h : d < 16) :
    (hexChar d).toNat = if d < 10 then 48 + d else 87 + d := by
  unfold hexChar
  split
  · exact char_toNat_ofNat (Or.inl (by omega))
  · exact char_toNat_ofNat (Or.inl (by omega))

theorem hexDigitVal_hexChar {d : Nat} (h : d < 16) :
    hexDigitVal (hexChar d) = some d := by
  have ht := hexChar_toNat h
  unfold hexDigitVal
  by_cases hd : d < 10
  · rw [if_pos hd] at ht
    rw [if_pos (by omega : 48 ≤ (hexChar d).toNat ∧ (hexChar d).toNat ≤ 57)]
    congr 1
    omega
  · rw [if_neg hd] at ht
    rw [if_neg (by omega : ¬(48 ≤ (hexChar d).toNat ∧ (hexChar d).toNat ≤ 57))]
    rw [if_pos (by omega : 97 ≤ (hexChar d).toNat ∧ (hexChar d).toNat ≤ 102)]
    congr 1
    omega

theorem hex4Val_parts {n : Nat} (h : n < 65536) :
    hex4Val (hexChar (n / 4096 % 16)) (hexChar (n / 256 % 16))
      (hexChar (n / 16 % 16)) (hexChar (n % 16)) = some n := by
  unfold hex4Val
  rw [hexDigitVal_hexChar (Nat.mod_lt _ (by omega)),
    hexDigitVal_hexChar (Nat.mod_lt _ (by omega)),
    hexDigitVal_hexChar (Nat.mod_lt _ (by omega)),
    hexDigitVal_hexChar (Nat.mod_lt _ (by omega))]
  exact congrArg some (by omega)

/-! ## Lemmas: decimal digits and `parseNat` -/

theorem natCharsF_eq_natChars (n : Nat) :
    ∀ f : Nat, n < f → natCharsF f n = natChars n := by
  induction n using Nat.strong_induction_on with
  | _ n ih =>
    intro f hf
    cases f with
    | zero => omega
    | succ f =>
      by_cases h10 : n < 10
      · show (if n < 10 then _ else _) = natChars n
        rw [if_pos h10]
        show _ = natCharsF (n + 1) n
        cases n with
        | zero => rfl
        | succ m =>
          show _ = (if m + 1 < 10 then _ else _)
          rw [if_pos h10]
      · show (if n < 10 then _ else _) = natChars n
        rw [if_neg h10]
        show _ = natCharsF (n + 1) n
        cases n with
        | zero => omega
        | succ m =>
          show _ = (if m + 1 < 10 then _ else _)
          rw [if_neg h10]
          have hd : (m + 1) / 10 < m + 1 := Nat.div_lt_self (by omega) (by omega)
          rw [ih ((m + 1) / 10) hd f (by omega),
            ih ((m + 1) / 10) hd (m + 1) (by omega)]

theorem natChars_eq (n : Nat) :
    natChars n =
      if n < 10 then [digitChar n]
      else natChars (n / 10) ++ [digitChar (n % 10)] := by
  show natCharsF (n + 1) n = _
  by_cases h10 : n < 10
  · cases n with
    | zero => rfl
    | succ m =>
      show (if m + 1 < 10 then _ else _) = _
      rw [if_pos h10, if_pos h10]
  · cases n with
    | zero => omega
    | succ m =>
      show (if m + 1 < 10 then _ else _) = _
      rw [if_neg h10, if_neg h10]
      have hd : (m + 1) / 10 < m + 1 := Nat.div_lt_self (by omega) (by omega)
      rw [natCharsF_eq_natChars ((m + 1) / 10) (m + 1) (by omega)]

theorem natChars_digits (n : Nat) :
    ∀ c ∈ natChars n, 48 ≤ c.toNat ∧ c.toNat ≤ 57 := by
  induction n using Nat.strong_induction_on with
  | _ n ih =>
    rw [natChars_eq]
    split
    · intro c hc
      rcases List.mem_singleton.1 hc with rfl
      rw [digitChar_toNat (by omega)]
      omega
    · rename_i hn
      intro c hc
      rcases List.mem_append.1 hc with h1 | h2
      · exact ih (n / 10) (Nat.div_lt_self (by omega) (by omega)) c h1
      · rcases List.mem_singleton.1 h2 with rfl
        rw [digitChar_toNat (Nat.mod_lt _ (by omega))]
        have := Nat.mod_lt n (y := 10) (by omega)
        omega

theorem natChars_ne_nil (n : Nat) : natChars n ≠ [] := by
  rw [natChars_eq]
  split
  · simp
  · simp

theorem fold10_natChars (n : Nat) : ∀ a : Nat,
    (natChars n).foldl (fun acc c => acc * 10 + (c.toNat - 48)) a =
      a * 10 ^ (natChars n).length + n := by
  induction n using Nat.strong_induction_on with
  | _ n ih =>
    intro a
    rw [natChars_eq]
    split
    · rename_i hn
      simp [List.foldl, digitChar_toNat hn]
    · rename_i hn
      rw [List.foldl_append, List.length_append,
        ih (n / 10) (Nat.div_lt_self (by omega) (by omega)) a]
      simp only [List.foldl, List.length_singleton]
      rw [digitChar_toNat (Nat.mod_lt _ (by omega)), pow_succ, ← mul_assoc]
      have hq := Nat.div_add_mod n 10
      generalize a * 10 ^ (natChars (n / 10)).length = t
      omega

theorem takeWhile_digits_append (l1 l2 : List Char)
    (h1 : ∀ c ∈ l1, isDigitChar c = true) (h2 : digitStart l2 = false) :
    (l1 ++ l2).takeWhile isDigitChar = l1 := by
  induction l1 with
  | nil =>
    cases l2 with
    | nil => rfl
    | cons c t =>
      simp only [digitStart] at h2
      simp only [List.nil_append, List.takeWhile, h2]
  | cons c t ih =>
    simp only [List.cons_append, List.takeWhile]
    rw [h1 c (List.mem_cons_self c t)]
    simp [ih (fun x hx => h1 x (List.mem_cons_of_mem c hx))]

theorem isDigitChar_of_natChars {n : Nat} :
    ∀ c ∈ natChars n, isDigitChar c = true := by
  intro c hc
  have := natChars_digits n c hc
  simp [isDigitChar]
  omega

theorem parseNat_natChars (n : Nat) (rest : List Char)
    (h : digitStart rest = false) :
    parseNat (natChars n ++ rest) = some (n, rest) := by
  unfold parseNat
  rw [takeWhile_digits_append _ _ isDigitChar_of_natChars h]
  rw [if_neg (natChars_ne_nil n)]
  rw [fold10_natChars n 0, List.drop_left]
  simp

/-! ## Lemmas: big-endian encodings -/

theorem beBytes_length (k n : Nat) : (beBytes k n).length = k := by
  induction k generalizing n with
  | zero => rfl
  | succ k ih => simp [beBytes, ih]

theorem foldBe (k : Nat) : ∀ n a : Nat, n < 256 ^ k →
    (beBytes k n).foldl (fun acc b => acc * 256 + b) a = a * 256 ^ k + n := by
  induction k with
  | zero => intro n a h; interval_cases n; simp [beBytes]
  | succ k ih =>
    intro n a h
    have hdiv : n / 256 < 256 ^ k := by
      rw [Nat.div_lt_iff_lt_mul (by omega)]
      calc n < 256 ^ (k + 1) := h
        _ = 256 ^ k * 256 := by rw [pow_succ]
    simp only [beBytes, List.foldl_append, List.foldl, ih (n / 256) a hdiv]
    rw [pow_succ, ← mul_assoc]
    have hq := Nat.div_add_mod n 256
    generalize a * 256 ^ k = t
    omega

theorem beVal_beBytes {k n : Nat} (h : n < 256 ^ k) :
    beVal (beBytes k n) = n := by
  unfold beVal
  rw [foldBe k n 0 h]
  omega

theorem readBytes_len {k : Nat} (l rest : List Nat) (h : l.length = k) :
    readBytes k (l ++ rest) = some (l, rest) := by
  subst h
  unfold readBytes
  rw [if_neg (by simp)]
  rw [List.take_left, List.drop_left]

theorem readBE_beBytes {k n : Nat} (rest : List Nat) (h : n < 256 ^ k) :
    readBE k (beBytes k n ++ rest) = some (n, rest) := by
  unfold readBE
  rw [readBytes_len (beBytes k n) rest (beBytes_length k n)]
  simp only []
  rw [beVal_beBytes h]


/-! ## Lemmas: parser equations

Equation lemmas restating each parser function on a constructor-shaped
input, so later proofs can rewrite one step at a time. -/

theorem parseStrBodyF_cons (f : Nat) (acc : List Char) (c : Char)
    (r : List Char) :
    parseStrBodyF (f + 1) acc (c :: r) =
      if c = '"' then some (⟨acc.reverse⟩, r)
      else if c = '\\' then
        match r with
        | [] => none
        | e :: r1 =>
          match escDecode e r1 with
          | some (c2, r2) => parseStrBodyF f (c2 :: acc) r2
          | none => none
      else parseStrBodyF f (c :: acc) r := by
  rw [parseStrBodyF.eq_def]

theorem parseV_cons (fuel : Nat) (c : Char) (r : List Char) :
    parseV (fuel + 1) (c :: r) =
      (if c = 'n' then
        match stripPre ['u', 'l', 'l'] r with
        | some r1 => some (.null, r1)
        | none => none
      else if c = 't' then
        match stripPre ['r', 'u', 'e'] r with
        | some r1 => some (.jbool true, r1)
        | none => none
      else if c = 'f' then
        match stripPre ['a', 'l', 's', 'e'] r with
        | some r1 => some (.jbool false, r1)
        | none => none
      else if c = '"' then
        match parseStr r with
        | some (s, r1) => some (.jstr s, r1)
        | none => none
      else if c = '[' then parseArrStart fuel r
      else if c = '{' then parseObjStart fuel r
      else if c = '-' then
        match parseNat r with
        | some (n, r1) => some (.jint (-(n : Int)), r1)
        | none => none
      else if isDigitChar c then
        match parseNat (c :: r) with
        | some (n, r1) => some (.jint (n : Int), r1)
        | none => none
      else none) := by
  rw [parseV.eq_def]

theorem parseArrStart_succ (fuel : Nat) (r : List Char) :
    parseArrStart (fuel + 1) r =
      match skipWs r with
      | [] => none
      | c :: r1 =>
        if c = ']' then some (.jarr .nil, r1)
        else
          match parseV fuel (c :: r1) with
          | some (v, r2) => parseArrRest fuel (.cons v .nil) r2
          | none => none := by
  rw [parseArrStart.eq_def]

theorem parseArrRest_succ (fuel : Nat) (acc : JArr) (cs : List Char) :
    parseArrRest (fuel + 1) acc cs =
      match skipWs cs with
      | [] => none
      | c :: r =>
        if c = ']' then some (.jarr (revA acc .nil), r)
        else if c = ',' then
          match parseV fuel (skipWs r) with
          | some (v, r1) => parseArrRest fuel (.cons v acc) r1
          | none => none
        else none := by
  rw [parseArrRest.eq_def]

theorem parseObjStart_succ (fuel : Nat) (r : List Char) :
    parseObjStart (fuel + 1) r =
      match skipWs r with
      | [] => none
      | c :: r1 =>
        if c = '}' then some (.jobj .nil, r1)
        else if c = '"' then
          match parseStr r1 with
          | some (k, r2) => parseObjField fuel .nil k r2
          | none => none
        else none := by
  rw [parseObjStart.eq_def]

theorem parseObjField_succ (fuel : Nat) (acc : JObj) (k : String)
    (cs : List Char) :
    parseObjField (fuel + 1) acc k cs =
      match skipWs cs with
      | [] => none
      | c :: r =>
        if c = ':' then
          match parseV fuel (skipWs r) with
          | some (v, r1) => parseObjRest fuel (.cons k v acc) r1
          | none => none
        else none := by
  rw [parseObjField.eq_def]

theorem parseObjRest_succ (fuel : Nat) (acc : JObj) (cs : List Char) :
    parseObjRest (fuel + 1) acc cs =
      match skipWs cs with
      | [] => none
      | c :: r =>
        if c = '}' then some (.jobj (revO acc .nil), r)
        else if c = ',' then
          match skipWs r with
          | [] => none
          | c2 :: r2 =>
            if c2 = '"' then
              match parseStr r2 with
              | some (k, r3) => parseObjField fuel acc k r3
              | none => none
            else none
        else none := by
  rw [parseObjRest.eq_def]

/-! ## Lemmas: JSON string escapes -/

theorem escUVal_cons (h1 h2 h3 h4 : Char) (r : List Char) :
    escUVal (h1 :: h2 :: h3 :: h4 :: r) =
      match hex4Val h1 h2 h3 h4 with
      | some m => some (m, r)
      | none => none := by
  rw [escUVal.eq_def]

theorem escUVal_hex4 {n : Nat} (t : List Char) (h : n < 65536) :
    escUVal (hex4 n ++ t) = some (n, t) := by
  simp only [hex4, List.cons_append, List.nil_append]
  rw [escUVal_cons, hex4Val_parts h]

theorem escSur_cons (m : Nat) (b1 u1 : Char) (r2 : List Char) :
    escSur m (b1 :: u1 :: r2) =
      if b1 = '\\' ∧ u1 = 'u' then
        match escUVal r2 with
        | some (m2, r3) =>
          if 56320 ≤ m2 ∧ m2 ≤ 57343 then
            some (Char.ofNat (65536 + (m - 55296) * 1024 + (m2 - 56320)), r3)
          else none
        | none => none
      else none := by
  rw [escSur.eq_def]

theorem escDecode_u (r : List Char) :
    escDecode 'u' r =
      match escUVal r with
      | some (m, r2) =>
        if 55296 ≤ m ∧ m ≤ 56319 then escSur m r2
        else some (Char.ofNat m, r2)
      | none => none := by
  rw [escDecode]
  rfl

theorem parseStrBodyF_bslash (f : Nat) (acc : List Char) (e : Char)
    (r1 : List Char) :
    parseStrBodyF (f + 1) acc ('\\' :: e :: r1) =
      match escDecode e r1 with
      | some (c2, r2) => parseStrBodyF f (c2 :: acc) r2
      | none => none := by
  rw [parseStrBodyF_cons, if_neg (by decide), if_pos rfl]

theorem parseStrBodyF_escChar (f : Nat) (c : Char) (acc t : List Char) :
    parseStrBodyF (f + 1) acc (escChar c ++ t) = parseStrBodyF f (c :: acc) t := by
  have hv := char_valid c
  simp only [escChar]
  by_cases h34 : c.toNat = 34
  · rw [if_pos h34]
    have hc : c = '"' := (char_eq_of_toNat h34).trans (by decide)
    subst hc
    rw [List.cons_append, List.cons_append, List.nil_append,
      parseStrBodyF_bslash]
    have hd : escDecode '"' t = some ('"', t) := by rfl
    rw [hd]
  rw [if_neg h34]
  by_cases h92 : c.toNat = 92
  · rw [if_pos h92]
    have hc : c = '\\' := (char_eq_of_toNat h92).trans (by decide)
    subst hc
    rw [List.cons_append, List.cons_append, List.nil_append,
      parseStrBodyF_bslash]
    have hd : escDecode '\\' t = some ('\\', t) := by rfl
    rw [hd]
  rw [if_neg h92]
  by_cases h10 : c.toNat = 10
  · rw [if_pos h10]
    have hc : c = '\n' := (char_eq_of_toNat h10).trans (by decide)
    subst hc
    rw [List.cons_append, List.cons_append, List.nil_append,
      parseStrBodyF_bslash]
    have hd : escDecode 'n' t = some ('\n', t) := by rfl
    rw [hd]
  rw [if_neg h10]
  by_cases h9 : c.toNat = 9
  · rw [if_pos h9]
    have hc : c = '\t' := (char_eq_of_toNat h9).trans (by decide)
    subst hc
    rw [List.cons_append, List.cons_append, List.nil_append,
      parseStrBodyF_bslash]
    have hd : escDecode 't' t = some ('\t', t) := by rfl
    rw [hd]
  rw [if_neg h9]
  by_cases h13 : c.toNat = 13
  · rw [if_pos h13]
    have hc : c = '\r' := (char_eq_of_toNat h13).trans (by decide)
    subst hc
    rw [List.cons_append, List.cons_append, List.nil_append,
      parseStrBodyF_bslash]
    have hd : escDecode 'r' t = some ('\r', t) := by rfl
    rw [hd]
  rw [if_neg h13]
  by_cases h8 : c.toNat = 8
  · rw [if_pos h8]
    have hc : c = Char.ofNat 8 := char_eq_of_toNat h8
    subst hc
    rw [List.cons_append, List.cons_append, List.nil_append,
      parseStrBodyF_bslash]
    have hd : escDecode 'b' t = some (Char.ofNat 8, t) := by rfl
    rw [hd]
  rw [if_neg h8]
  by_cases h12 : c.toNat = 12
  · rw [if_pos h12]
    have hc : c = Char.ofNat 12 := char_eq_of_toNat h12
    subst hc
    rw [List.cons_append, List.cons_append, List.nil_append,
      parseStrBodyF_bslash]
    have hd : escDecode 'f' t = some (Char.ofNat 12, t) := by rfl
    rw [hd]
  rw [if_neg h12]
  by_cases hc32 : c.toNat < 32
  · rw [if_pos hc32]
    rw [List.cons_append, List.cons_append, parseStrBodyF_bslash]
    have hd : escDecode 'u' (hex4 c.toNat ++ t) =
        some (Char.ofNat c.toNat, t) := by
      rw [escDecode_u, escUVal_hex4 t (by omega)]
      simp only []
      rw [if_neg (by omega : ¬(55296 ≤ c.toNat ∧ c.toNat ≤ 56319))]
    rw [hd, Char.ofNat_toNat]
  rw [if_neg hc32]
  by_cases hc127 : c.toNat < 127
  · rw [if_pos hc127]
    have hne34 : ¬(c = '"') := fun h => h34 (by rw [h]; rfl)
    have hne92 : ¬(c = '\\') := fun h => h92 (by rw [h]; rfl)
    rw [List.cons_append, List.nil_append, parseStrBodyF_cons,
      if_neg hne34, if_neg hne92]
  rw [if_neg hc127]
  by_cases hbmp : c.toNat < 65536
  · rw [if_pos hbmp]
    have hnosur : ¬(55296 ≤ c.toNat ∧ c.toNat ≤ 56319) := by
      rcases hv with h | h
      · omega
      · omega
    rw [List.cons_append, List.cons_append, parseStrBodyF_bslash]
    have hd : escDecode 'u' (hex4 c.toNat ++ t) =
        some (Char.ofNat c.toNat, t) := by
      rw [escDecode_u, escUVal_hex4 t (by omega)]
      simp only []
      rw [if_neg hnosur]
    rw [hd, Char.ofNat_toNat]
  rw [if_neg hbmp]
  have hmax : c.toNat < 1114112 := by
    rcases hv with h | h
    · omega
    · omega
  simp only [List.cons_append, List.append_assoc]
  rw [parseStrBodyF_bslash]
  have hd : escDecode 'u'
      (hex4 (55296 + (c.toNat - 65536) / 1024) ++
        ('\\' :: 'u' :: (hex4 (56320 + (c.toNat - 65536) % 1024) ++ t))) =
      some (Char.ofNat c.toNat, t) := by
    rw [escDecode_u,
      escUVal_hex4 _ (by omega : 55296 + (c.toNat - 65536) / 1024 < 65536)]
    simp only []
    rw [if_pos (by omega :
      55296 ≤ 55296 + (c.toNat - 65536) / 1024 ∧
        55296 + (c.toNat - 65536) / 1024 ≤ 56319)]
    rw [escSur_cons,
      if_pos (by decide : ('\\' : Char) = '\\' ∧ ('u' : Char) = 'u'),
      escUVal_hex4 _ (by omega : 56320 + (c.toNat - 65536) % 1024 < 65536)]
    simp only []
    rw [if_pos (by omega :
      56320 ≤ 56320 + (c.toNat - 65536) % 1024 ∧
        56320 + (c.toNat - 65536) % 1024 ≤ 57343)]
    have harith :
        65536 + (55296 + (c.toNat - 65536) / 1024 - 55296) * 1024 +
          (56320 + (c.toNat - 65536) % 1024 - 56320) = c.toNat := by
      omega
    rw [harith]
  rw [hd, Char.ofNat_toNat]

theorem parseStrBodyF_escStr (l : List Char) : ∀ (f : Nat) (acc t : List Char),
    l.length < f →
    parseStrBodyF f acc (escStr l ++ '"' :: t) = some (⟨acc.reverse ++ l⟩, t) := by
  induction l with
  | nil =>
    intro f acc t hf
    cases f with
    | zero => omega
    | succ f =>
      simp only [escStr, List.flatMap_nil, List.nil_append]
      rw [parseStrBodyF_cons, if_pos rfl]
      simp
  | cons c l ih =>
    intro f acc t hf
    cases f with
    | zero => omega
    | succ f =>
      simp only [escStr, List.flatMap_cons, List.append_assoc]
      rw [← escStr, parseStrBodyF_escChar,
        ih f (c :: acc) t (by simp at hf; omega)]
      simp

theorem escChar_length_pos (c : Char) : 1 ≤ (escChar c).length := by
  simp only [escChar]
  by_cases h34 : c.toNat = 34
  · rw [if_pos h34]; decide
  rw [if_neg h34]
  by_cases h92 : c.toNat = 92
  · rw [if_pos h92]; decide
  rw [if_neg h92]
  by_cases h10 : c.toNat = 10
  · rw [if_pos h10]; decide
  rw [if_neg h10]
  by_cases h9 : c.toNat = 9
  · rw [if_pos h9]; decide
  rw [if_neg h9]
  by_cases h13 : c.toNat = 13
  · rw [if_pos h13]; decide
  rw [if_neg h13]
  by_cases h8 : c.toNat = 8
  · rw [if_pos h8]; decide
  rw [if_neg h8]
  by_cases h12 : c.toNat = 12
  · rw [if_pos h12]; decide
  rw [if_neg h12]
  by_cases hc32 : c.toNat < 32
  · rw [if_pos hc32]; simp [hex4]
  rw [if_neg hc32]
  by_cases hc127 : c.toNat < 127
  · rw [if_pos hc127]; simp
  rw [if_neg hc127]
  by_cases hbmp : c.toNat < 65536
  · rw [if_pos hbmp]; simp [hex4]
  rw [if_neg hbmp]
  simp [hex4]

theorem escStr_length_ge (l : List Char) : l.length ≤ (escStr l).length := by
  induction l with
  | nil => simp [escStr]
  | cons c l ih =>
    simp only [escStr, List.flatMap_cons, List.length_append, List.length_cons]
    have h1 := escChar_length_pos c
    simp only [escStr] at ih
    omega

theorem parseStr_dumpStr (s : String) (t : List Char) :
    parseStr (escStr s.data ++ '"' :: t) = some (s, t) := by
  have hf : s.data.length < (escStr s.data ++ '"' :: t).length + 1 := by
    have h1 := escStr_length_ge s.data
    simp only [List.length_append, List.length_cons]
    omega
  unfold parseStr
  rw [parseStrBodyF_escStr s.data _ [] t hf]
  cases s
  rfl

/-! ## Lemmas: serializer head shapes and whitespace -/

theorem skipWs_cons {c : Char} (r : List Char)
    (h : c.toNat ≠ 32 ∧ c.toNat ≠ 9 ∧ c.toNat ≠ 10 ∧ c.toNat ≠ 13) :
    skipWs (c :: r) = c :: r := by
  rw [skipWs.eq_def]
  have h32 : ¬(c = ' ') := fun hc => h.1 (by rw [hc]; rfl)
  have h9 : ¬(c = '\t') := fun hc => h.2.1 (by rw [hc]; rfl)
  have h10 : ¬(c = '\n') := fun hc => h.2.2.1 (by rw [hc]; rfl)
  have h13 : ¬(c = '\r') := fun hc => h.2.2.2 (by rw [hc]; rfl)
  simp [h32, h9, h10, h13]

theorem natChars_head (n : Nat) :
    ∃ c cs, natChars n = c :: cs ∧ 48 ≤ c.toNat ∧ c.toNat ≤ 57 := by
  obtain ⟨c, cs, h⟩ := List.exists_cons_of_ne_nil (natChars_ne_nil n)
  refine ⟨c, cs, h, ?_⟩
  have := natChars_digits n c (by rw [h]; exact List.mem_cons_self c cs)
  omega

/-- Head property of every serialized value: the first character selects
the right parser branch and is neither whitespace, a digit-run breaker
seen from the left, a closing bracket, a comma nor a colon. -/
theorem dumpV_head (v : JVal) :
    ∃ c cs, dumpV v = c :: cs ∧
      (c.toNat = 110 ∨ c.toNat = 116 ∨ c.toNat = 102 ∨ c.toNat = 34 ∨
        c.toNat = 91 ∨ c.toNat = 123 ∨ c.toNat = 45 ∨
        (48 ≤ c.toNat ∧ c.toNat ≤ 57)) := by
  cases v with
  | null => exact ⟨'n', _, rfl, by decide⟩
  | jbool b =>
    cases b with
    | true => exact ⟨'t', _, rfl, by decide⟩
    | false => exact ⟨'f', _, rfl, by decide⟩
  | jint n =>
    simp only [dumpV, intChars]
    by_cases hn : n < 0
    · rw [if_pos hn]
      exact ⟨'-', _, rfl, by decide⟩
    · rw [if_neg hn]
      obtain ⟨c, cs, h, h1, h2⟩ := natChars_head n.toNat
      exact ⟨c, cs, h, by omega⟩
  | jstr s => exact ⟨'"', _, rfl, by decide⟩
  | jarr xs => exact ⟨'[', _, rfl, by decide⟩
  | jobj fs => exact ⟨'{', _, rfl, by decide⟩

theorem skipWs_dumpV (v : JVal) (t : List Char) :
    skipWs (dumpV v ++ t) = dumpV v ++ t := by
  obtain ⟨c, cs, h, hc⟩ := dumpV_head v
  rw [h, List.cons_append, skipWs_cons _ (by omega)]

theorem digitStart_dumpTailA (x : JArr) (t : List Char) :
    digitStart (dumpTailA x ++ ']' :: t) = false := by
  cases x with
  | nil => rfl
  | cons h x => rfl

theorem digitStart_dumpTailO (x : JObj) (t : List Char) :
    digitStart (dumpTailO x ++ '}' :: t) = false := by
  cases x with
  | nil => rfl
  | cons k v x => rfl

theorem stripPre_append (ks : List Char) (rest : List Char) :
    stripPre ks (ks ++ rest) = some rest := by
  induction ks with
  | nil => rfl
  | cons k ks ih => simp [stripPre, ih]

/-! ## Lemmas: serialized size bounds the parser fuel -/

mutual
theorem sizeV_le (v : JVal) : sizeV v ≤ 3 * (dumpV v).length := by
  cases v with
  | null => decide
  | jbool b => cases b <;> decide
  | jint n =>
    have h1 : sizeV (.jint n) = 1 := rfl
    have h2 : (dumpV (.jint n)).length ≥ 1 := by
      show (intChars n).length ≥ 1
      unfold intChars
      split
      · simp
      · have := natChars_ne_nil n.toNat
        cases hh : natChars n.toNat with
        | nil => exact absurd hh this
        | cons a b => simp
    omega
  | jstr s =>
    have h2 : (dumpV (.jstr s)).length ≥ 1 := by
      show (dumpStr s).length ≥ 1
      simp [dumpStr]
    have h1 : sizeV (.jstr s) = 1 := rfl
    omega
  | jarr xs =>
    cases xs with
    | nil => decide
    | cons h t =>
      have h1 := sizeV_le h
      have h2 := sizeA_le t
      show 2 + sizeA (.cons h t) ≤
        3 * ('[' :: dumpItemsA (.cons h t) ++ [']']).length
      simp only [sizeA, dumpItemsA, dumpTailA, List.length_cons,
        List.length_append, List.length_singleton]
      omega
  | jobj fs =>
    cases fs with
    | nil => decide
    | cons k v t =>
      have h1 := sizeV_le v
      have h2 := sizeO_le t
      show 3 + sizeO (.cons k v t) ≤
        3 * ('{' :: dumpItemsO (.cons k v t) ++ ['}']).length
      simp only [sizeO, dumpItemsO, dumpTailO, dumpStr, List.length_cons,
        List.length_append, List.length_singleton]
      omega
theorem sizeA_le (x : JArr) : sizeA x ≤ 3 * (dumpTailA x).length + 1 := by
  cases x with
  | nil => decide
  | cons h t =>
    have h1 := sizeV_le h
    have h2 := sizeA_le t
    show 1 + sizeV h + sizeA t ≤
      3 * (',' :: ' ' :: (dumpV h ++ dumpTailA t)).length + 1
    simp only [List.length_cons, List.length_append]
    omega
theorem sizeO_le (x : JObj) : sizeO x ≤ 3 * (dumpTailO x).length + 1 := by
  cases x with
  | nil => decide
  | cons k v t =>
    have h1 := sizeV_le v
    have h2 := sizeO_le t
    show 3 + sizeV v + sizeO t ≤
      3 * (',' :: ' ' ::
        (dumpStr k ++ ':' :: ' ' :: dumpV v ++ dumpTailO t)).length + 1
    simp only [List.length_cons, List.length_append, dumpStr]
    omega
end

theorem sizeV_pos (v : JVal) : 1 ≤ sizeV v := by
  cases v <;> simp [sizeV] <;> omega

theorem sizeA_pos (x : JArr) : 1 ≤ sizeA x := by
  cases x with
  | nil => simp [sizeA]
  | cons h t => have := sizeV_pos h; simp [sizeA]; omega

theorem sizeO_pos (x : JObj) : 1 ≤ sizeO x := by
  cases x with
  | nil => simp [sizeO]
  | cons k v t => have := sizeV_pos v; simp [sizeO]; omega

theorem skipWs_space (r : List Char) : skipWs (' ' :: r) = skipWs r := by
  rw [skipWs.eq_def]
  simp

/-- Shared step of object parsing: after a field's key, consume
`": "`, the value, and the remaining fields. The two recursive facts
come from the induction on fuel at the call sites. -/
theorem parseObjField_step (f2 : Nat) (acc : JObj) (k : String) (v : JVal)
    (t : JObj) (rest : List Char)
    (hv : parseV f2 (dumpV v ++ (dumpTailO t ++ '}' :: rest)) =
      some (v, dumpTailO t ++ '}' :: rest))
    (ht : parseObjRest f2 (.cons k v acc) (dumpTailO t ++ '}' :: rest) =
      some (.jobj (revO (.cons k v acc) t), rest)) :
    parseObjField (f2 + 1) acc k
        (':' :: ' ' :: (dumpV v ++ (dumpTailO t ++ '}' :: rest))) =
      some (.jobj (revO acc (.cons k v t)), rest) := by
  rw [parseObjField_succ, skipWs_cons _ (by decide)]
  simp only []
  rw [if_true, skipWs_space, skipWs_dumpV, hv]
  simp only []
  rw [ht]
  rfl

/-- Round trip of the JSON parser against the serializer, by strong
induction on parser fuel: any serialized value followed by a non-digit
re-parses to itself exactly. -/
theorem parse_dumps (fuel : Nat) :
    (∀ v rest, sizeV v ≤ fuel → digitStart rest = false →
      parseV fuel (dumpV v ++ rest) = some (v, rest)) ∧
    (∀ x acc rest, sizeA x ≤ fuel →
      parseArrRest fuel acc (dumpTailA x ++ ']' :: rest) =
        some (.jarr (revA acc x), rest)) ∧
    (∀ x acc rest, sizeO x ≤ fuel →
      parseObjRest fuel acc (dumpTailO x ++ '}' :: rest) =
        some (.jobj (revO acc x), rest)) := by
  induction fuel using Nat.strong_induction_on with
  | _ fuel IH =>
    refine ⟨?_, ?_, ?_⟩
    · intro v rest hsz hrest
      cases fuel with
      | zero => exact absurd hsz (by have := sizeV_pos v; omega)
      | succ fuel =>
      cases v with
      | null =>
        simp only [dumpV, List.cons_append, List.nil_append]
        rw [parseV_cons, if_pos rfl]
        simp [stripPre]
      | jbool b =>
        cases b with
        | true =>
          simp only [dumpV, List.cons_append, List.nil_append]
          rw [parseV_cons, if_neg (by decide), if_pos rfl]
          simp [stripPre]
        | false =>
          simp only [dumpV, List.cons_append, List.nil_append]
          rw [parseV_cons, if_neg (by decide), if_neg (by decide),
            if_pos rfl]
          simp [stripPre]
      | jint n =>
        simp only [dumpV, intChars]
        by_cases hn : n < 0
        · rw [if_pos hn]
          simp only [List.cons_append]
          rw [parseV_cons, if_neg (by decide), if_neg (by decide),
            if_neg (by decide), if_neg (by decide), if_neg (by decide),
            if_neg (by decide), if_pos rfl,
            parseNat_natChars n.natAbs rest hrest]
          simp only []
          have he : (-(n.natAbs : Int)) = n := by omega
          rw [he]
        · rw [if_neg hn]
          obtain ⟨d, ds, hcons, hd⟩ := natChars_head n.toNat
          rw [hcons, List.cons_append, parseV_cons,
            if_neg (fun hh => by rw [hh] at hd; exact absurd hd (by decide)),
            if_neg (fun hh => by rw [hh] at hd; exact absurd hd (by decide)),
            if_neg (fun hh => by rw [hh] at hd; exact absurd hd (by decide)),
            if_neg (fun hh => by rw [hh] at hd; exact absurd hd (by decide)),
            if_neg (fun hh => by rw [hh] at hd; exact absurd hd (by decide)),
            if_neg (fun hh => by rw [hh] at hd; exact absurd hd (by decide)),
            if_neg (fun hh => by rw [hh] at hd; exact absurd hd (by decide)),
            if_pos (by simp [isDigitChar]; omega),
            ← List.cons_append, ← hcons,
            parseNat_natChars n.toNat rest hrest]
          simp only []
          have he : ((n.toNat : Int)) = n := by omega
          rw [he]
      | jstr s =>
        simp only [dumpV, dumpStr, List.cons_append, List.append_assoc,
          List.singleton_append, List.nil_append]
        rw [parseV_cons, if_neg (by decide), if_neg (by decide),
          if_neg (by decide), if_pos rfl, parseStr_dumpStr]
      | jarr xs =>
        simp only [dumpV, List.cons_append, List.append_assoc,
          List.singleton_append, List.nil_append]
        rw [parseV_cons, if_neg (by decide), if_neg (by decide),
          if_neg (by decide), if_neg (by decide), if_pos rfl]
        cases xs with
        | nil =>
          have hf : 1 ≤ fuel := by
            simp [sizeV, sizeA] at hsz
            omega
          cases fuel with
          | zero => omega
          | succ f1 =>
          simp only [dumpItemsA, List.nil_append]
          rw [parseArrStart_succ, skipWs_cons _ (by decide)]
          simp only []
          rw [if_true]
        | cons h t =>
          have hszs : sizeV h + sizeA t + 3 ≤ fuel + 1 := by
            have hc := hsz
            simp [sizeV, sizeA] at hc
            omega
          have hf : 1 ≤ fuel := by
            have := sizeV_pos h
            have := sizeA_pos t
            omega
          cases fuel with
          | zero => omega
          | succ f1 =>
          obtain ⟨c, cs, hcons, hcp⟩ := dumpV_head h
          have hIH1 := (IH f1 (by omega)).1 h
            (dumpTailA t ++ ']' :: rest)
            (by have := sizeA_pos t; omega) (digitStart_dumpTailA t rest)
          have hIH2 := (IH f1 (by omega)).2.1 t (.cons h .nil) rest
            (by have := sizeV_pos h; omega)
          rw [hcons] at hIH1
          simp only [List.cons_append] at hIH1
          simp only [dumpItemsA, List.append_assoc]
          rw [parseArrStart_succ, hcons]
          simp only [List.cons_append]
          rw [skipWs_cons _ (by omega)]
          simp only []
          rw [if_neg (fun hh => by
              rw [hh] at hcp
              exact absurd hcp (by decide)),
            hIH1]
          simp only []
          rw [hIH2]
          rfl
      | jobj fs =>
        simp only [dumpV, List.cons_append, List.append_assoc,
          List.singleton_append, List.nil_append]
        rw [parseV_cons, if_neg (by decide), if_neg (by decide),
          if_neg (by decide), if_neg (by decide), if_neg (by decide),
          if_pos rfl]
        cases fs with
        | nil =>
          have hf : 1 ≤ fuel := by
            simp [sizeV, sizeO] at hsz
            omega
          cases fuel with
          | zero => omega
          | succ f1 =>
          simp only [dumpItemsO, List.nil_append]
          rw [parseObjStart_succ, skipWs_cons _ (by decide)]
          simp only []
          rw [if_true]
        | cons k v t =>
          have hszs : sizeV v + sizeO t + 6 ≤ fuel + 1 := by
            have hc := hsz
            simp [sizeV, sizeO] at hc
            omega
          have hf : 2 ≤ fuel := by
            have := sizeV_pos v
            have := sizeO_pos t
            omega
          cases fuel with
          | zero => omega
          | succ f0 =>
          cases f0 with
          | zero => omega
          | succ f1 =>
          simp only [dumpItemsO, dumpStr, List.cons_append,
            List.append_assoc, List.singleton_append, List.nil_append]
          rw [parseObjStart_succ, skipWs_cons _ (by decide)]
          simp only []
          rw [if_neg (by decide), if_true, parseStr_dumpStr]
          simp only []
          rw [parseObjField_step f1 .nil k v t rest
            ((IH f1 (by omega)).1 v (dumpTailO t ++ '}' :: rest)
              (by have := sizeO_pos t; omega) (digitStart_dumpTailO t rest))
            ((IH f1 (by omega)).2.2 t (.cons k v .nil) rest
              (by have := sizeV_pos v; omega))]
          rfl
    · intro x acc rest hsz
      cases fuel with
      | zero => exact absurd hsz (by have := sizeA_pos x; omega)
      | succ fuel =>
      cases x with
      | nil =>
        simp only [dumpTailA, List.nil_append]
        rw [parseArrRest_succ, skipWs_cons _ (by decide)]
        simp only []
        rw [if_true]
      | cons h t =>
        have hszs : sizeV h + sizeA t + 1 ≤ fuel + 1 := by
          have hc := hsz
          simp [sizeA] at hc
          omega
        have hIH1 := (IH fuel (by omega)).1 h (dumpTailA t ++ ']' :: rest)
          (by have := sizeA_pos t; omega) (digitStart_dumpTailA t rest)
        have hIH2 := (IH fuel (by omega)).2.1 t (.cons h acc) rest
          (by have := sizeV_pos h; omega)
        simp only [dumpTailA, List.cons_append, List.append_assoc]
        rw [parseArrRest_succ, skipWs_cons _ (by decide)]
        simp only []
        rw [if_neg (by decide), if_true, skipWs_space, skipWs_dumpV, hIH1]
        simp only []
        rw [hIH2]
        rfl
    · intro x acc rest hsz
      cases fuel with
      | zero => exact absurd hsz (by have := sizeO_pos x; omega)
      | succ fuel =>
      cases x with
      | nil =>
        simp only [dumpTailO, List.nil_append]
        rw [parseObjRest_succ, skipWs_cons _ (by decide)]
        simp only []
        rw [if_true]
      | cons k v t =>
        have hszs : sizeV v + sizeO t + 3 ≤ fuel + 1 := by
          have hc := hsz
          simp [sizeO] at hc
          omega
        have hf : 1 ≤ fuel := by
          have := sizeV_pos v
          have := sizeO_pos t
          omega
        cases fuel with
        | zero => omega
        | succ f1 =>
        simp only [dumpTailO, dumpStr, List.cons_append, List.append_assoc,
          List.singleton_append, List.nil_append]
        rw [parseObjRest_succ, skipWs_cons _ (by decide)]
        simp only []
        rw [if_neg (by decide), if_true, skipWs_space,
          skipWs_cons _ (by decide)]
        simp only []
        rw [if_true, parseStr_dumpStr]
        simp only []
        rw [parseObjField_step f1 acc k v t rest
          ((IH f1 (by omega)).1 v (dumpTailO t ++ '}' :: rest)
            (by have := sizeO_pos t; omega) (digitStart_dumpTailO t rest))
          ((IH f1 (by omega)).2.2 t (.cons k v acc) rest
            (by have := sizeV_pos v; omega))]

theorem stringMk_data (s : String) : (⟨s.data⟩ : String) = s := by
  cases s
  rfl

theorem skipWs_nil : skipWs [] = [] := rfl

theorem jsonLoads_dumpV (v : JVal) : jsonLoads (dumpV v) = some v := by
  unfold jsonLoads
  have hskip : skipWs (dumpV v) = dumpV v := by
    have := skipWs_dumpV v []
    simpa using this
  rw [hskip]
  have hrt := (parse_dumps (3 * (dumpV v).length + 3)).1 v []
    (by have := sizeV_le v; omega) rfl
  rw [List.append_nil] at hrt
  rw [hrt]
  simp [skipWs_nil]

theorem jsonLoads_dumpV_nl (v : JVal) :
    jsonLoads (dumpV v ++ ['\n']) = some v := by
  unfold jsonLoads
  rw [skipWs_dumpV]
  have hrt := (parse_dumps (3 * (dumpV v ++ ['\n']).length + 3)).1 v ['\n']
    (by have := sizeV_le v; simp; omega) rfl
  rw [hrt]
  simp [skipWs]

/-! ## Lemmas: the serializer emits no newline byte -/

theorem hexChar_ne10 {d : Nat} (h : d < 16) : (hexChar d).toNat ≠ 10 := by
  have := hexChar_toNat h
  split at this <;> omega

theorem escChar_no_nl (c : Char) : ∀ e ∈ escChar c, e.toNat ≠ 10 := by
  have hv := char_valid c
  simp only [escChar]
  by_cases h34 : c.toNat = 34
  · rw [if_pos h34]; decide
  rw [if_neg h34]
  by_cases h92 : c.toNat = 92
  · rw [if_pos h92]; decide
  rw [if_neg h92]
  by_cases h10 : c.toNat = 10
  · rw [if_pos h10]; decide
  rw [if_neg h10]
  by_cases h9 : c.toNat = 9
  · rw [if_pos h9]; decide
  rw [if_neg h9]
  by_cases h13 : c.toNat = 13
  · rw [if_pos h13]; decide
  rw [if_neg h13]
  by_cases h8 : c.toNat = 8
  · rw [if_pos h8]; decide
  rw [if_neg h8]
  by_cases h12 : c.toNat = 12
  · rw [if_pos h12]; decide
  rw [if_neg h12]
  by_cases hc32 : c.toNat < 32
  · rw [if_pos hc32]
    simp only [hex4, List.forall_mem_cons]
    refine ⟨by decide, by decide, hexChar_ne10 (Nat.mod_lt _ (by omega)),
      hexChar_ne10 (Nat.mod_lt _ (by omega)),
      hexChar_ne10 (Nat.mod_lt _ (by omega)),
      hexChar_ne10 (Nat.mod_lt _ (by omega)), by simp⟩
  rw [if_neg hc32]
  by_cases hc127 : c.toNat < 127
  · rw [if_pos hc127]
    intro e he
    rcases List.mem_singleton.1 he with rfl
    omega
  rw [if_neg hc127]
  by_cases hbmp : c.toNat < 65536
  · rw [if_pos hbmp]
    simp only [hex4, List.forall_mem_cons]
    refine ⟨by decide, by decide, hexChar_ne10 (Nat.mod_lt _ (by omega)),
      hexChar_ne10 (Nat.mod_lt _ (by omega)),
      hexChar_ne10 (Nat.mod_lt _ (by omega)),
      hexChar_ne10 (Nat.mod_lt _ (by omega)), by simp⟩
  rw [if_neg hbmp]
  simp only [hex4, List.cons_append, List.nil_append, List.forall_mem_cons]
  refine ⟨by decide, by decide, hexChar_ne10 (Nat.mod_lt _ (by omega)),
    hexChar_ne10 (Nat.mod_lt _ (by omega)),
    hexChar_ne10 (Nat.mod_lt _ (by omega)),
    hexChar_ne10 (Nat.mod_lt _ (by omega)), by decide, by decide,
    hexChar_ne10 (Nat.mod_lt _ (by omega)),
    hexChar_ne10 (Nat.mod_lt _ (by omega)),
    hexChar_ne10 (Nat.mod_lt _ (by omega)),
    hexChar_ne10 (Nat.mod_lt _ (by omega)), by simp⟩

theorem natChars_no_nl (n : Nat) : ∀ e ∈ natChars n, e.toNat ≠ 10 := by
  intro e he
  have := natChars_digits n e he
  omega

theorem dumpStr_no_nl (s : String) : ∀ e ∈ dumpStr s, e.toNat ≠ 10 := by
  simp only [dumpStr, List.forall_mem_cons, escStr, List.forall_mem_append,
    List.forall_mem_singleton]
  refine ⟨⟨by decide, ?_⟩, by decide, by simp⟩
  intro e he
  rcases List.mem_flatMap.1 he with ⟨a, _, ha⟩
  exact escChar_no_nl a e ha

mutual
theorem noNL_V (v : JVal) : ∀ e ∈ dumpV v, e.toNat ≠ 10 := by
  cases v with
  | null => decide
  | jbool b => cases b <;> decide
  | jint n =>
    simp only [dumpV, intChars]
    split
    · simp only [List.forall_mem_cons]
      exact ⟨by decide, natChars_no_nl _⟩
    · exact natChars_no_nl _
  | jstr s => exact dumpStr_no_nl s
  | jarr xs =>
    cases xs with
    | nil => decide
    | cons hd tl =>
      have h1 := noNL_V hd
      have h2 := noNL_TA tl
      simp only [dumpV, dumpItemsA, List.forall_mem_cons,
        List.forall_mem_append, List.forall_mem_singleton]
      have h3 : ('[' : Char).toNat ≠ 10 := by decide
      have h4 : (']' : Char).toNat ≠ 10 := by decide
      tauto
  | jobj fs =>
    cases fs with
    | nil => decide
    | cons k v tl =>
      have h1 := dumpStr_no_nl k
      have h2 := noNL_V v
      have h3 := noNL_TO tl
      simp only [dumpV, dumpItemsO, List.forall_mem_cons,
        List.forall_mem_append, List.forall_mem_singleton]
      have h4 : ('{' : Char).toNat ≠ 10 := by decide
      have h5 : ('}' : Char).toNat ≠ 10 := by decide
      have h6 : (':' : Char).toNat ≠ 10 := by decide
      have h7 : (' ' : Char).toNat ≠ 10 := by decide
      tauto
theorem noNL_TA (x : JArr) : ∀ e ∈ dumpTailA x, e.toNat ≠ 10 := by
  cases x with
  | nil => decide
  | cons hd tl =>
    have h1 := noNL_V hd
    have h2 := noNL_TA tl
    simp only [dumpTailA, List.forall_mem_cons, List.forall_mem_append]
    have h3 : (',' : Char).toNat ≠ 10 := by decide
    have h4 : (' ' : Char).toNat ≠ 10 := by decide
    tauto
theorem noNL_TO (x : JObj) : ∀ e ∈ dumpTailO x, e.toNat ≠ 10 := by
  cases x with
  | nil => decide
  | cons k v tl =>
    have h1 := dumpStr_no_nl k
    have h2 := noNL_V v
    have h3 := noNL_TO tl
    simp only [dumpTailO, List.forall_mem_cons, List.forall_mem_append]
    have h4 : (',' : Char).toNat ≠ 10 := by decide
    have h5 : (' ' : Char).toNat ≠ 10 := by decide
    have h6 : (':' : Char).toNat ≠ 10 := by decide
    tauto
end

/-! ## Lemmas: byte conversions and `readline` -/

theorem takeWhile_append_stop {α : Type} (p : α → Bool) (l1 l2 : List α)
    (x : α) (h1 : ∀ c ∈ l1, p c = true) (h2 : p x = false) :
    (l1 ++ x :: l2).takeWhile p = l1 := by
  induction l1 with
  | nil => simp [List.takeWhile, h2]
  | cons c t ih =>
    simp only [List.cons_append, List.takeWhile]
    rw [h1 c (List.mem_cons_self c t)]
    simp [ih (fun y hy => h1 y (List.mem_cons_of_mem c hy))]

theorem bytesChars_charsBytes (l : List Char) : bytesChars (charsBytes l) = l := by
  unfold bytesChars charsBytes
  rw [List.map_map]
  have : Char.ofNat ∘ Char.toNat = id := by
    funext c
    exact Char.ofNat_toNat c
  rw [this, List.map_id]

theorem readLine_append (a rest : List Nat) (h : ∀ b ∈ a, b ≠ 10) :
    readLine (a ++ 10 :: rest) = a ++ [10] := by
  unfold readLine
  have ht : (a ++ 10 :: rest).takeWhile (fun b => b ≠ 10) = a := by
    refine takeWhile_append_stop _ a rest 10 ?_ (by simp)
    intro c hc
    simp [h c hc]
  rw [ht]
  rw [if_pos (by simp)]

theorem charsBytes_no_nl (l : List Char) (h : ∀ e ∈ l, e.toNat ≠ 10) :
    ∀ b ∈ charsBytes l, b ≠ 10 := by
  intro b hb
  rcases List.mem_map.1 hb with ⟨c, hc, rfl⟩
  exact h c hc

theorem bytesChars_append_nl (a : List Char) :
    bytesChars (charsBytes a ++ [10]) = a ++ ['\n'] := by
  have h1 : charsBytes a ++ [10] = charsBytes (a ++ ['\n']) := by
    unfold charsBytes
    rw [List.map_append]
    rfl
  rw [h1, bytesChars_charsBytes]

/-! ## Lemmas: `JsonFormat` record round trip -/

theorem tsOfInt_natCast (t : Nat) : tsOfInt ((t : Nat) : Int) = t := by
  simp [tsOfInt]

theorem jsonReadRecord_enc (k : String) (v : JVal) (t : Nat)
    (rest : List Nat) :
    jsonReadRecord (jsonEncodeRecord k v t ++ rest) =
      .record k (some v) t (jsonEncodeRecord k v t).length false := by
  unfold jsonReadRecord jsonEncodeRecord
  have hnl := charsBytes_no_nl _ (noNL_V (jsonRecordObj k v t))
  rw [List.append_assoc, List.cons_append, List.nil_append,
    readLine_append _ _ hnl]
  rw [if_neg (by simp)]
  rw [bytesChars_append_nl, jsonLoads_dumpV_nl]
  simp [jsonRecordObj, JObj.find, tsOfInt]

theorem jsonReadRecord_tomb (k : String) (t : Nat) (rest : List Nat) :
    jsonReadRecord (jsonEncodeTombstone k t ++ rest) =
      .record k none t (jsonEncodeTombstone k t).length true := by
  unfold jsonReadRecord jsonEncodeTombstone
  have hnl := charsBytes_no_nl _ (noNL_V (jsonTombstoneObj k t))
  rw [List.append_assoc, List.cons_append, List.nil_append,
    readLine_append _ _ hnl]
  rw [if_neg (by simp)]
  rw [bytesChars_append_nl, jsonLoads_dumpV_nl]
  simp [jsonTombstoneObj, JObj.find, tsOfInt, isTruthy]

/-! ## Lemmas: `ProtoFormat` record round trip -/

theorem flatMap_beBytes_length (cs : List Char) :
    (cs.flatMap (fun c => beBytes 4 c.toNat)).length = 4 * cs.length := by
  induction cs with
  | nil => rfl
  | cons c t ih =>
    simp only [List.flatMap_cons, List.length_append, ih,
      beBytes_length, List.length_cons]
    omega

theorem protoPayload_length (k : String) (vb : List Nat) (t : Nat)
    (d : Bool) :
    (protoPayload k vb t d).length = 17 + 4 * k.data.length + vb.length := by
  unfold protoPayload
  simp only [List.length_append, flatMap_beBytes_length, beBytes_length,
    List.length_cons, List.length_nil]
  omega

theorem readPayloadChars_rt (cs : List Char) (rest : List Nat) :
    readPayloadChars cs.length
      (cs.flatMap (fun c => beBytes 4 c.toNat) ++ rest) = some (cs, rest) := by
  induction cs with
  | nil => rfl
  | cons c t ih =>
    simp only [List.flatMap_cons, List.length_cons, List.append_assoc]
    rw [readPayloadChars, readBE_beBytes _ (by have := char_valid c; omega)]
    simp only []
    rw [ih]
    simp [Char.ofNat_toNat]

theorem parseProtoPayload_rt (k : String) (vb : List Nat) (t : Nat)
    (d : Bool) (hk : k.data.length < 4294967296)
    (hv : vb.length < 4294967296) (ht : t < 18446744073709551616) :
    parseProtoPayload (protoPayload k vb t d) = some (k, vb, t, d) := by
  have h232 : (256 : Nat) ^ 4 = 4294967296 := by norm_num
  have h264 : (256 : Nat) ^ 8 = 18446744073709551616 := by norm_num
  unfold parseProtoPayload protoPayload
  rw [List.append_assoc, List.append_assoc, List.append_assoc,
    List.append_assoc]
  rw [readBE_beBytes _ (by rw [h232]; omega)]
  simp only []
  rw [readPayloadChars_rt]
  simp only []
  rw [readBE_beBytes _ (by rw [h232]; omega)]
  simp only []
  rw [readBytes_len vb _ rfl]
  simp only []
  rw [readBE_beBytes _ (by rw [h264]; omega)]
  simp only []
  cases d with
  | true => simp [stringMk_data]
  | false => simp [stringMk_data]

theorem protoReadRecord_enc (k : String) (v : JVal) (t : Nat)
    (rest : List Nat)
    (hlen : (protoPayload k (charsBytes (dumpV v)) t false).length <
      4294967296)
    (ht : t < 18446744073709551616) :
    protoReadRecord (protoEncodeRecord k v t ++ rest) =
      .record k (some v) t (protoEncodeRecord k v t).length false := by
  have hpl := protoPayload_length k (charsBytes (dumpV v)) t false
  have h232 : (256 : Nat) ^ 4 = 4294967296 := by norm_num
  unfold protoReadRecord protoEncodeRecord
  simp only [List.append_assoc]
  rw [readBE_beBytes _ (by rw [h232]; omega)]
  simp only []
  rw [if_neg (by omega)]
  rw [readBytes_len _ _ rfl]
  simp only []
  rw [parseProtoPayload_rt k _ t false (by omega) (by omega) ht]
  simp only []
  rw [bytesChars_charsBytes, jsonLoads_dumpV]
  simp only [List.length_append, beBytes_length]
  simp [Nat.add_comm]

theorem protoReadRecord_tomb (k : String) (t : Nat) (rest : List Nat)
    (hk : k.data.length < 1073741818) (ht : t < 18446744073709551616) :
    protoReadRecord (protoEncodeTombstone k t ++ rest) =
      .record k none t (protoEncodeTombstone k t).length true := by
  have hpl : (protoPayload k [] t true).length = 17 + 4 * k.data.length := by
    rw [protoPayload_length]
    simp only [List.length_nil]
    omega
  have h232 : (256 : Nat) ^ 4 = 4294967296 := by norm_num
  unfold protoReadRecord protoEncodeTombstone
  simp only [List.append_assoc]
  rw [readBE_beBytes _ (by rw [h232]; omega)]
  simp only []
  rw [if_neg (by omega)]
  rw [readBytes_len _ _ rfl]
  simp only []
  rw [parseProtoPayload_rt k [] t true (by omega) (by simp) ht]
  simp only [List.length_append, beBytes_length]
  simp [Nat.add_comm]

/-! ## Lemmas: association lists and file tables -/

theorem lookupAssoc_setAssoc {α : Type} (l : List (String × α)) (k : String)
    (v : α) : lookupAssoc (setAssoc l k v) k = some v := by
  induction l with
  | nil => simp [setAssoc, lookupAssoc]
  | cons p t ih =>
    unfold setAssoc
    by_cases h : p.1 = k
    · rw [if_pos h]
      simp [lookupAssoc]
    · rw [if_neg h]
      unfold lookupAssoc
      rw [if_neg h]
      exact ih

theorem insertFileId_ne_nil (a : Nat) (l : List Nat) :
    insertFileId a l ≠ [] := by
  cases l with
  | nil => simp [insertFileId]
  | cons b t =>
    unfold insertFileId
    split <;> simp

theorem sortFileIds_ne_nil {l : List Nat} (h : l ≠ []) :
    sortFileIds l ≠ [] := by
  cases l with
  | nil => exact absurd rfl h
  | cons a t => exact insertFileId_ne_nil a (sortFileIds t)

theorem le_maxFileId (files : List (Nat × List Nat)) :
    ∀ p ∈ files, p.1 ≤ maxFileId files := by
  have hgen : ∀ (l : List Nat) (a : Nat), ∀ x ∈ l, x ≤ l.foldl max a := by
    intro l
    induction l with
    | nil => intro a x hx; simp at hx
    | cons b t ih =>
      intro a x hx
      rcases List.mem_cons.1 hx with rfl | hx
      · calc x ≤ max a x := le_max_right a x
          _ ≤ t.foldl max (max a x) := by
            clear hx ih
            induction t generalizing x a with
            | nil => simp
            | cons c u ihu =>
              simp only [List.foldl]
              calc max a x ≤ max (max a x) c := le_max_left _ c
                _ ≤ u.foldl max (max (max a x) c) := by
                  exact ihu (max a x) c |>.trans (by rw [max_comm])
      · exact ih (max a b) x hx
  intro p hp
  exact hgen _ 0 p.1 (List.mem_map.2 ⟨p, hp, rfl⟩)

theorem removeFile_not_mem (files : List (Nat × List Nat)) (n : Nat)
    (h : ∀ p ∈ files, p.1 ≠ n) : removeFile files n = files := by
  induction files with
  | nil => rfl
  | cons p t ih =>
    unfold removeFile
    rw [if_neg (h p (List.mem_cons_self p t))]
    rw [ih (fun q hq => h q (List.mem_cons_of_mem p hq))]

/-! ## Claim theorems -/

/-- C1: the claim states that after any single-writer sequence of puts
and deletes, also after close+reopen, `get(k)` agrees with the logical
map (last un-deleted put wins). The code violates this: recovery scans
`data_<N>.db` files in NAME order (`data_10.db` before `data_2.db`) and
applies tombstones unconditionally, so after ten files exist, the
tombstone that `delete("a")` wrote into `data_2.db` erases the later
`put("a", "v2")` recovered from `data_10.db`. Before reopen `get("a")`
is `"v2"`; after reopen it is not-found, and the active id regresses to
9. -/
theorem claim1_recovery_divergence :
    getVal eRun11 "a" = some (.jstr "v2") ∧
    getVal eRun11 "b" = some (.jstr "x") ∧
    eRun11.activeFileId = 10 ∧
    eRun11.files.map (fun f => f.1) = [1, 2, 3, 4, 5, 6, 7, 8, 9, 10] ∧
    getVal eReopen "a" = none ∧
    getVal eReopen "b" = some (.jstr "x") ∧
    eReopen.activeFileId = 9 := by
  refine ⟨?_, ?_, ?_, ?_, ?_, ?_, ?_⟩ <;> rfl

/-- C2: the claim states that opening a directory scans data files in
increasing numeric order of `N` and sets `active_file_id` to the maximum
`N`, in particular with mixed digit counts. The code sorts file NAMES,
so `data_10.db` sorts before `data_2.db`: the scan order is [10, 2] and
the engine opened on `{data_2.db, data_10.db}` sets `active_file_id` to
2, not 10. -/
theorem claim2_lexicographic_scan :
    sortFileIds [2, 10] = [10, 2] ∧
    c2Engine.activeFileId = 2 ∧
    c2Engine.activeFileId ≠ 10 := by
  refine ⟨?_, ?_, by decide⟩ <;> rfl

/-- C3: the claim states rotation is checked on every put and that with
`EntryCount(max=5)` six puts move `active_file_id` strictly up. The
engine's `__init__` accepts no rotation strategy and `put` never
consults one: after six puts the entry count has reached the point where
`EntryCountRotation.should_rotate` would fire, yet the active file id is
unchanged and only one data file exists (all six keys do remain
readable). -/
theorem claim3_no_rotation :
    c3Engine0.activeFileId = 1 ∧
    c3Engine.activeFileId = 1 ∧
    c3Engine.activeEntryCount = 6 ∧
    entryCountShouldRotate 5 c3Engine.activeEntryCount = true ∧
    c3Engine.files.length = 1 ∧
    getVal c3Engine "k0" = some (.jstr "v") ∧
    getVal c3Engine "k1" = some (.jstr "v") ∧
    getVal c3Engine "k2" = some (.jstr "v") ∧
    getVal c3Engine "k3" = some (.jstr "v") ∧
    getVal c3Engine "k4" = some (.jstr "v") ∧
    getVal c3Engine "k5" = some (.jstr "v") := by
  refine ⟨?_, ?_, ?_, ?_, ?_, ?_, ?_, ?_, ?_, ?_, ?_⟩ <;> rfl

/-- C4 counterexample: the claim as stated says a failed compaction
restores "the previous active file" as the engine's active file. On the
ten-file store whose active file is `data_10.db`, the failure handler
restores `old_data_files[-1]` — the lexicographically last name,
`data_9.db` — so the restored active id is 9, not the previous 10. -/
theorem claim4_counterexample :
    eRun11.activeFileId = 10 ∧
    (match compactOp eRun11 0 true true with
      | .failed e => e.activeFileId
      | .done _ _ => 0) = 9 := by
  refine ⟨?_, ?_⟩ <;> rfl

/-- C4 (amended): if an error occurs between creating the new compacted
file and the index swap, `compact` raises a compaction-failed error; the
partially written `data_<max+1>.db` is unlinked (the directory is as
before), the live index is exactly what it was, and the engine's active
file becomes the NAME-wise last existing data file — which equals the
previous active file only when name order and numeric order agree. -/
theorem claim4_failure_rollback (e : Engine) (thr : ℚ)
    (hne : e.files.map (fun f => f.1) ≠ []) :
    ∃ e', compactOp e thr true true = .failed e' ∧
      e'.index = e.index ∧
      e'.files = e.files ∧
      e'.activeFileId =
        (sortFileIds (e.files.map (fun f => f.1))).getLastD 0 ∧
      e'.activeOpen = true := by
  have hrm : removeFile e.files (maxFileId e.files + 1) = e.files := by
    refine removeFile_not_mem _ _ ?_
    intro p hp
    have := le_maxFileId e.files p hp
    omega
  simp only [compactOp, Bool.not_true, Bool.false_and]
  rw [if_neg (by simp)]
  simp only [if_true, compactRestore]
  rcases hl : sortFileIds (e.files.map (fun f => f.1)) with _ | ⟨a, l⟩
  · exact absurd hl (sortFileIds_ne_nil hne)
  · rw [hl]
    refine ⟨_, rfl, ?_, ?_, ?_, ?_⟩
    · rfl
    · exact hrm
    · rfl
    · rfl

/-- Witness for C4 (amended) at the one-file store of a fresh engine. -/
theorem claim4_failure_rollback_witness :
    ∃ e', compactOp c3Engine0 0 true true = .failed e' ∧
      e'.index = c3Engine0.index ∧
      e'.files = c3Engine0.files ∧
      e'.activeFileId =
        (sortFileIds (c3Engine0.files.map (fun f => f.1))).getLastD 0 ∧
      e'.activeOpen = true :=
  claim4_failure_rollback c3Engine0 0 (by decide)

/-- C5: `delete` on a key absent from the index returns `False` and
leaves the whole engine state — in particular the active file's bytes —
untouched; `delete` on a present key appends exactly the one encoded
tombstone to the active file, issues one `flush` and one `os.fsync`,
removes the key from the index and returns `True`. -/
theorem claim5_delete (e : Engine) (k : String) (t : Nat) :
    (lookupAssoc e.index k = none → deleteOp e k t = (false, e)) ∧
    (∀ entry, lookupAssoc e.index k = some entry → e.activeOpen = true →
      deleteOp e k t =
        (true,
          { e with
            files := appendFile e.files e.activeFileId
              (encodeTombstone e.fmt k t)
            flushes := e.flushes + 1
            fsyncs := e.fsyncs + 1
            index := eraseAssoc e.index k })) := by
  constructor
  · intro h
    unfold deleteOp
    rw [h]
  · intro entry h hopen
    unfold deleteOp
    rw [h]
    simp only [hopen, if_true]

/-- Witness for C5 on a one-record engine: deleting the absent key
`"zzz"` is a no-op returning `False`, and deleting the present key
`"a"` appends the tombstone, fsyncs, and drops the key. -/
theorem claim5_delete_witness :
    deleteOp eRun1 "zzz" 7 = (false, eRun1) ∧
    deleteOp eRun1 "a" 7 =
      (true,
        { eRun1 with
          files := appendFile eRun1.files eRun1.activeFileId
            (encodeTombstone eRun1.fmt "a" 7)
          flushes := eRun1.flushes + 1
          fsyncs := eRun1.fsyncs + 1
          index := eraseAssoc eRun1.index "a" }) :=
  ⟨(claim5_delete eRun1 "zzz" 7).1 (by rfl),
    (claim5_delete eRun1 "a" 7).2
      { fileId := 1, valueSize := 2, valuePos := 1, timestamp := 1 }
      (by rfl) (by rfl)⟩

/-- C6: for every key, value and timestamp in valid ranges (encodable
sizes, `u64` timestamp, well-formed value) and both codecs the engine
uses, `read_record` applied to `encode_record(k, v, t)` returns
`(k, v, t, record_size, is_tombstone=False)` with `record_size` the
exact number of encoded bytes, and applied to `encode_tombstone(k, t)`
returns a tombstone with timestamp `t`. The proto payload is modelled
from the spec (its generated protobuf module is not part of the
sources). -/
theorem claim6_codec_roundtrip (k : String) (v : JVal) (t : Nat)
    (hwf : wfV v = true)
    (hlen : (protoPayload k (charsBytes (dumpV v)) t false).length <
      4294967296)
    (hk : k.data.length < 1073741818)
    (ht : t < 18446744073709551616) :
    (readRecord .protoF (protoEncodeRecord k v t) =
      .record k (some v) t (protoEncodeRecord k v t).length false) ∧
    (readRecord .protoF (protoEncodeTombstone k t) =
      .record k none t (protoEncodeTombstone k t).length true) ∧
    (readRecord .jsonF (jsonEncodeRecord k v t) =
      .record k (some v) t (jsonEncodeRecord k v t).length false) ∧
    (readRecord .jsonF (jsonEncodeTombstone k t) =
      .record k none t (jsonEncodeTombstone k t).length true) := by
  have hpl := protoPayload_length k (charsBytes (dumpV v)) t false
  refine ⟨?_, ?_, ?_, ?_⟩
  · have h := protoReadRecord_enc k v t [] hlen ht
    rw [List.append_nil] at h
    exact h
  · have h := protoReadRecord_tomb k t [] hk ht
    rw [List.append_nil] at h
    exact h
  · have h := jsonReadRecord_enc k v t []
    rw [List.append_nil] at h
    exact h
  · have h := jsonReadRecord_tomb k t []
    rw [List.append_nil] at h
    exact h

/-- Witness for C6 at `k = "a"`, `v = "b"`, `t = 5`. -/
theorem claim6_codec_roundtrip_witness :
    readRecord .protoF (protoEncodeRecord "a" (.jstr "b") 5) =
      .record "a" (some (.jstr "b")) 5
        (protoEncodeRecord "a" (.jstr "b") 5).length false :=
  (claim6_codec_roundtrip "a" (.jstr "b") 5 (by decide) (by decide)
    (by decide) (by decide)).1

/-- C7 counterexample: the claim says a debug/readable-mode engine
writes `0x02` as the format identifier of each file it creates. The
first byte of the file a debug-mode engine creates is `0x03`
(`JsonFormat`); `0x02` is `BinaryFormat`, which the engine never
selects. -/
theorem claim7_counterexample :
    fileContent (engineInit [] true).files 1 = some [3] ∧ (3 : Nat) ≠ 2 :=
  ⟨by rfl, by decide⟩

/-- C7 (amended): byte 0 of every newly created data file is `0x01`
when the engine uses the compact proto format and `0x03` when the
engine is opened in debug/readable (JSON) mode. -/
theorem claim7_format_byte (debugMode : Bool) :
    fileContent (engineInit [] debugMode).files 1 =
      some [if debugMode then 3 else 1] ∧
    fmtId (chooseFmt debugMode) = (if debugMode then 3 else 1) := by
  cases debugMode with
  | true => exact ⟨by rfl, by rfl⟩
  | false => exact ⟨by rfl, by rfl⟩

/-- C8 counterexample: the claim says a data file whose first byte is
not a recognized codec identifier is skipped during recovery, its
records never entering the index. On a file starting with byte 255
followed by a well-formed proto record for key `"a"`, recovery puts
`"a"` into the index and `get("a")` returns the value. -/
theorem claim8_counterexample :
    lookupAssoc c8Engine.index "a" =
      some { fileId := 1, valueSize := 1, valuePos := 1, timestamp := 5 } ∧
    getVal c8Engine "a" = some (.jstr "x") := by
  refine ⟨?_, ?_⟩ <;> rfl

/-- C8 (amended): `get_format_by_identifier` maps every unrecognized
identifier byte to the default `ProtoFormat` instead of failing, so the
`if not format` skip branch in `_build_index` is unreachable: a file
with an unrecognized first byte is scanned with the proto codec and
records that parse under it enter the index; the file itself is not
deleted. -/
theorem claim8_unknown_format_fallback :
    (∀ b : Nat, b ≠ 1 → b ≠ 2 → b ≠ 3 → formatById b = Fmt.protoF) ∧
    lookupAssoc c8Engine.index "a" =
      some { fileId := 1, valueSize := 1, valuePos := 1, timestamp := 5 } ∧
    c8Engine.files = [(1, c8File)] := by
  refine ⟨?_, by rfl, by rfl⟩
  intro b h1 h2 h3
  unfold formatById
  rw [if_neg h1, if_neg h2, if_neg h3]

/-- Witness for C8 (amended) at the unrecognized byte 255. -/
theorem claim8_unknown_format_fallback_witness :
    formatById 255 = Fmt.protoF :=
  claim8_unknown_format_fallback.1 255 (by decide) (by decide) (by decide)

/-- C9: `should_compact` returns `False` whenever the total size is
below 1 MiB, and whenever there are fewer than two files totalling under
10 MiB; in the remaining cases it returns exactly
`estimated_dead_ratio >= threshold`. Consequently `compact` without
`force` on a sub-1-MiB store returns `performed = False` with reason
`"threshold_not_met"` and leaves the engine untouched. -/
theorem claim9_threshold (e : Engine) (θ : ℚ) (w : Bool) :
    (totalSize e < 1048576 → shouldCompact e θ = false) ∧
    (e.files.length < 2 ∧ totalSize e < 10485760 →
      shouldCompact e θ = false) ∧
    (¬ totalSize e < 1048576 →
      ¬ (e.files.length < 2 ∧ totalSize e < 10485760) →
      shouldCompact e θ =
        decide ((compactionStats e).estimatedDeadRatio ≥ θ)) ∧
    (totalSize e < 1048576 →
      compactOp e θ false w = .done e
        { performed := false, reason := some "threshold_not_met",
          recordsWritten := 0, bytesWritten := 0, filesRemoved := 0 }) := by
  have ha : totalSize e < 1048576 → shouldCompact e θ = false := by
    intro h
    simp only [shouldCompact, compactionStats]
    rw [if_pos (by omega : totalSize e < 1024 * 1024)]
  refine ⟨ha, ?_, ?_, ?_⟩
  · rintro ⟨h1, h2⟩
    simp only [shouldCompact, compactionStats]
    by_cases hc : totalSize e < 1024 * 1024
    · rw [if_pos hc]
    · rw [if_neg hc,
        if_pos (show (decide (e.files.length < 2) &&
            decide (totalSize e < 10 * 1024 * 1024)) = true by
          simp only [Bool.and_eq_true, decide_eq_true_eq]
          exact ⟨h1, by omega⟩)]
  · intro hna hnb
    simp only [shouldCompact, compactionStats]
    rw [if_neg (by omega : ¬ totalSize e < 1024 * 1024)]
    rw [if_neg (show ¬ (decide (e.files.length < 2) &&
        decide (totalSize e < 10 * 1024 * 1024)) = true by
      simp only [Bool.and_eq_true, decide_eq_true_eq]
      intro hcc
      exact hnb ⟨hcc.1, by omega⟩)]
  · intro h
    unfold compactOp
    rw [ha h]
    rfl

/-- Witness for C9 on the fresh one-file engine (1 byte on disk) and on
the two-file store holding 1 MiB + 1 bytes. -/
theorem claim9_threshold_witness :
    shouldCompact c3Engine0 (1 / 10) = false ∧
    shouldCompact c3Engine0 (2 / 10) = false ∧
    shouldCompact c9BigEngine (1 / 10) =
      decide ((compactionStats c9BigEngine).estimatedDeadRatio ≥
        ((1 / 10 : ℚ))) ∧
    compactOp c3Engine0 (1 / 10) false false = .done c3Engine0
      { performed := false, reason := some "threshold_not_met",
        recordsWritten := 0, bytesWritten := 0, filesRemoved := 0 } := by
  have hts : totalSize c9BigEngine = 1048577 := by
    have hrep : (List.replicate 1048576 (0 : Nat)).length = 1048576 :=
      List.length_replicate 1048576 0
    simp only [totalSize, c9BigEngine, List.map_cons, List.map_nil,
      List.sum_cons, List.sum_nil, hrep, List.length_cons, List.length_nil]
    omega
  have h1 := claim9_threshold c3Engine0 (1 / 10) false
  have h2 := claim9_threshold c3Engine0 (2 / 10) false
  have h3 := claim9_threshold c9BigEngine (1 / 10) false
  refine ⟨h1.1 (by decide), h2.2.1 ⟨by decide, by decide⟩, ?_,
    h1.2.2.2 (by decide)⟩
  refine h3.2.2.1 (by omega) ?_
  rintro ⟨hf, _⟩
  exact absurd hf (by decide)

/-- C10: after `close()` and without reopening, `put` first recreates a
fresh active data file — the id moves one past the closed file, the
handle is open again and the key lands in the index at the start of the
new file — while `batch_write` on any non-empty dict dereferences the
`None` active-file handle without `put`'s guard and raises before
writing a single record. -/
theorem claim10_closed_engine (e : Engine) (k : String) (v : JVal)
    (t : Nat) (data : List (String × JVal)) (hne : data ≠ []) :
    batchWrite (closeOp e) data t = none ∧
    (putOp (closeOp e) k v t).activeOpen = true ∧
    (putOp (closeOp e) k v t).activeFileId = e.activeFileId + 1 ∧
    lookupAssoc (putOp (closeOp e) k v t).index k =
      some { fileId := e.activeFileId + 1,
             valueSize := valueSizeOf (some v),
             valuePos :=
               (activeContent (createNewDataFile (closeOp e))).length,
             timestamp := t } := by
  refine ⟨by rfl, by rfl, by rfl, ?_⟩
  exact lookupAssoc_setAssoc _ k _

/-- Witness for C10 after closing the one-put engine. -/
theorem claim10_closed_engine_witness :
    ([("c", JVal.jstr "y")] : List (String × JVal)) ≠ [] ∧
    (batchWrite (closeOp eRun1) [("c", .jstr "y")] 7 = none ∧
      (putOp (closeOp eRun1) "c" (.jstr "y") 7).activeOpen = true ∧
      (putOp (closeOp eRun1) "c" (.jstr "y") 7).activeFileId =
        eRun1.activeFileId + 1 ∧
      lookupAssoc (putOp (closeOp eRun1) "c" (.jstr "y") 7).index "c" =
        some { fileId := eRun1.activeFileId + 1,
               valueSize := valueSizeOf (some (.jstr "y")),
               valuePos :=
                 (activeContent (createNewDataFile (closeOp eRun1))).length,
               timestamp := 7 }) :=
  ⟨by simp,
    claim10_closed_engine eRun1 "c" (.jstr "y") 7 [("c", .jstr "y")]
      (by simp)⟩
